import Mathlib

/-!
Verification of the cache/consistency core of the CSBS capstone artifact:
the AVL-tree client index (`data_structs`), the secondary employee→clients
group index, the `Transaction` guard, and the `ClientHandler` /
`EmployeeHandler` operations from `operation_handlers.rs`.

Handler operations are embedded as pure functions from an oracle describing
the remote store's per-call outcomes (`Db`) and a handler state to a result,
a successor state and the list of store calls issued (`DbEvent`s), mirroring
the Rust control flow statement by statement.  The i32 identifiers of the
source are modelled as `Int`.
-/

set_option maxHeartbeats 1600000

/-- Modelled from the spec (§7, errors.rs is not among the provided sources):
the application error taxonomy — not-found, duplicate-key, a store error
wrapping a diagnostic message, and the reserved invariant-violation case. -/
inductive AppError where
  | notFound
  | duplicateKey
  | storeError (msg : String)
  | invariantViolation
deriving DecidableEq, Repr

/-- The `Client` record of firm_models.rs: id, name, service-selection code
and assigned-employee id (all integer fields are i32 in the source). -/
structure Client where
  client_id : Int
  client_name : String
  client_service : Int
  asn_employee_id : Int
deriving DecidableEq, Repr

/-- `Identification::get_key` for `Client`: the AVL key is the client id. -/
def Client.get_key (c : Client) : Int := c.client_id

/-- The `Employee` record of firm_models.rs. -/
structure Employee where
  employee_id : Int
  employee_name : String
  hashed_password : String
deriving DecidableEq, Repr

/-- `Employee::get_employee_hash` (returns the stored password hash). -/
def Employee.get_employee_hash (e : Employee) : String := e.hashed_password

/-- One call issued to the remote store, in issue order.  The three
transaction-control calls are kept apart from the per-entity CRUD calls. -/
inductive DbEvent where
  | beginT
  | commitT
  | rollbackT
  | newClientCall (c : Client)
  | updateClientCall (c : Client)
  | removeClientCall (c : Client)
  | newEmployeeCall (e : Employee)
  | updateEmployeeCall (e : Employee)
  | removeEmployeeCall (id : Int)
  | getEmployeeHashCall (id : Int)
  | getEmployeeCall (id : Int)
deriving DecidableEq, Repr

/-- Modelled from the spec (§6, database.rs is not among the provided
sources): an oracle fixing the outcome of each remote `DatabaseManager`
call a handler operation may issue.  Call signatures follow their use sites
in operation_handlers.rs. -/
structure Db where
  beginRes : Except AppError Unit
  commitRes : Except AppError Unit
  rollbackRes : Except AppError Unit
  newClientRes : Client → Except AppError Unit
  updateClientRes : Client → Except AppError Unit
  removeClientRes : Client → Except AppError Unit
  newEmployeeRes : Employee → Except AppError Unit
  updateEmployeeRes : Employee → Except AppError Unit
  removeEmployeeRes : Int → Except AppError Unit
  getEmployeeHashRes : Int → Except AppError (Option String)
  getEmployeeRes : Int → Except AppError (Option Employee)

/-- The `Transaction` guard of operation_handlers.rs: only the `completed`
flag is state; the store handle is passed explicitly as the `Db` oracle. -/
structure Transaction where
  completed : Bool
deriving DecidableEq, Repr

/-- `Transaction::drop`: scope exit issues `rollback_transaction` once when
the guard is still pending, and discards that call's result (`let _ = ...`);
a completed guard issues nothing. -/
def Transaction.dropEvents (t : Transaction) : List DbEvent :=
  if t.completed then [] else [DbEvent.rollbackT]

/-- `Transaction::new`: issues `begin_transaction`; on failure no guard is
created and the error propagates, otherwise a pending guard is returned. -/
def Transaction.new (db : Db) : Except AppError Transaction × List DbEvent :=
  match db.beginRes with
  | .error e => (.error e, [DbEvent.beginT])
  | .ok _ => (.ok { completed := false }, [DbEvent.beginT])

/-- `Transaction::commit`: issues `commit_transaction`; on failure the error
propagates with `completed` still false, so the guard (consumed by value) is
dropped pending and its scope exit issues a rollback; on success `completed`
is set before the drop, which then issues nothing. -/
def Transaction.commit (db : Db) (t : Transaction) :
    Except AppError Unit × List DbEvent :=
  match db.commitRes with
  | .error e => (.error e, DbEvent.commitT :: Transaction.dropEvents t)
  | .ok _ =>
      (.ok (), DbEvent.commitT :: Transaction.dropEvents { t with completed := true })

/-- Modelled from the spec (§2, §4.1; data_structs.rs is not among the
provided sources): the height-balanced binary search tree `AVLTree<T>`.
The source caches subtree heights in each node; here `AVLTree.height`
recomputes the same value structurally. -/
inductive AVLTree (α : Type) where
  | leaf
  | node (l : AVLTree α) (v : α) (r : AVLTree α)
deriving DecidableEq, Repr

namespace AVLTree

/-- Subtree height: 0 for an empty tree, 1 + max of the children otherwise
(the value the source keeps cached in each node). -/
def height {α : Type} : AVLTree α → Nat
  | .leaf => 0
  | .node l _ r => max (height l) (height r) + 1

/-- In-order traversal of the stored records. -/
def inorder {α : Type} : AVLTree α → List α
  | .leaf => []
  | .node l v r => inorder l ++ v :: inorder r

/-- The keys of the tree in in-order. -/
def keysL {α : Type} (key : α → Int) (t : AVLTree α) : List Int :=
  (inorder t).map key

/-- Modelled from the spec (§4.1): rebalancing at a node whose children's
heights differ by two, choosing the single or double rotation from the sign
of the heavier child's balance factor (left-left / left-right and mirrors);
children differing by at most one are reassembled unchanged. -/
def rebalance {α : Type} (l : AVLTree α) (v : α) (r : AVLTree α) : AVLTree α :=
  if height l = height r + 2 then
    match l with
    | .node ll lv lr =>
        if height lr ≤ height ll then
          .node ll lv (.node lr v r)
        else
          match lr with
          | .node lrl lrv lrr => .node (.node ll lv lrl) lrv (.node lrr v r)
          | .leaf => .node l v r
    | .leaf => .node l v r
  else if height r = height l + 2 then
    match r with
    | .node rl rv rr =>
        if height rl ≤ height rr then
          .node (.node l v rl) rv rr
        else
          match rl with
          | .node rll rlv rlr => .node (.node l v rll) rlv (.node rlr rv rr)
          | .leaf => .node l v r
    | .leaf => .node l v r
  else .node l v r

/-- Modelled from the spec (§4.1): `insert` fails with `DuplicateKeyError`
on an existing key, otherwise inserts at the search position and rebalances
on the way back up. -/
def insert {α : Type} (key : α → Int) : AVLTree α → α → Except AppError (AVLTree α)
  | .leaf, x => .ok (.node .leaf x .leaf)
  | .node l v r, x =>
      if key x < key v then
        match insert key l x with
        | .error e => .error e
        | .ok l2 => .ok (rebalance l2 v r)
      else if key v < key x then
        match insert key r x with
        | .error e => .error e
        | .ok r2 => .ok (rebalance l v r2)
      else .error .duplicateKey

/-- Modelled from the spec (§4.1): `find` descends by key comparison and
fails with `NotFoundError` when the key is absent. -/
def find {α : Type} (key : α → Int) : AVLTree α → Int → Except AppError α
  | .leaf, _ => .error .notFound
  | .node l v r, k =>
      if k < key v then find key l k
      else if key v < k then find key r k
      else .ok v

/-- Modelled from the spec (§4.1): detaches the in-order minimum of a
non-empty tree, rebalancing on the way back up; `none` on the empty tree. -/
def removeMin {α : Type} : AVLTree α → Option (α × AVLTree α)
  | .leaf => none
  | .node l v r =>
      match removeMin l with
      | none => some (v, r)
      | some (m, l2) => some (m, rebalance l2 v r)

/-- Modelled from the spec (§4.1): `remove` fails with `NotFoundError` when
the key is absent; a leaf is detached, a node with one child is spliced, a
node with two children is replaced by its in-order successor, with
rebalancing at every ancestor. -/
def remove {α : Type} (key : α → Int) : AVLTree α → Int → Except AppError (AVLTree α)
  | .leaf, _ => .error .notFound
  | .node l v r, k =>
      if k < key v then
        match remove key l k with
        | .error e => .error e
        | .ok l2 => .ok (rebalance l2 v r)
      else if key v < k then
        match remove key r k with
        | .error e => .error e
        | .ok r2 => .ok (rebalance l v r2)
      else
        match removeMin r with
        | none => .ok l
        | some (m, r2) => .ok (rebalance l m r2)

/-- The AVL shape invariant: at every node the children's heights differ by
at most one. -/
def Balanced {α : Type} : AVLTree α → Prop
  | .leaf => True
  | .node l _ r =>
      Balanced l ∧ Balanced r ∧ height l ≤ height r + 1 ∧ height r ≤ height l + 1

/-- The search-order invariant: at every node all keys on the left are
strictly below the node's key and all keys on the right strictly above. -/
def Ordered {α : Type} (key : α → Int) : AVLTree α → Prop
  | .leaf => True
  | .node l v r =>
      (∀ y ∈ inorder l, key y < key v) ∧ (∀ y ∈ inorder r, key v < key y) ∧
      Ordered key l ∧ Ordered key r

/-- Every node's balance factor, height(left) − height(right) over ℤ, lies
in {−1, 0, 1} (the spec's §3 formulation of the shape invariant). -/
def bfacOK {α : Type} : AVLTree α → Prop
  | .leaf => True
  | .node l _ r =>
      ((height l : Int) - height r = -1 ∨ (height l : Int) - height r = 0 ∨
        (height l : Int) - height r = 1) ∧ bfacOK l ∧ bfacOK r

instance instDecidableBalanced {α : Type} : (t : AVLTree α) → Decidable (Balanced t)
  | .leaf => .isTrue trivial
  | .node l _ r =>
      have : Decidable (Balanced l) := instDecidableBalanced l
      have : Decidable (Balanced r) := instDecidableBalanced r
      inferInstanceAs (Decidable (_ ∧ _ ∧ _ ∧ _))

instance instDecidableOrdered {α : Type} (key : α → Int) :
    (t : AVLTree α) → Decidable (Ordered key t)
  | .leaf => .isTrue trivial
  | .node l _ r =>
      have : Decidable (Ordered key l) := instDecidableOrdered key l
      have : Decidable (Ordered key r) := instDecidableOrdered key r
      inferInstanceAs (Decidable (_ ∧ _ ∧ _ ∧ _))

end AVLTree

/-- `HashMap::get` on the association-list model of the std `HashMap`s the
handlers hold (`stored_hashes`, `stored_employees`, `employee_client_pairs`). -/
def hmGet {β : Type} : List (Int × β) → Int → Option β
  | [], _ => none
  | (k2, v) :: rest, k => if k2 = k then some v else hmGet rest k

/-- `HashMap::insert`: replaces the binding of the key, or appends one. -/
def hmSet {β : Type} : List (Int × β) → Int → β → List (Int × β)
  | [], k, v => [(k, v)]
  | (k2, v2) :: rest, k, v =>
      if k2 = k then (k, v) :: rest else (k2, v2) :: hmSet rest k v

/-- `HashMap::remove`: deletes the binding of the key. -/
def hmRemove {β : Type} : List (Int × β) → Int → List (Int × β)
  | [], _ => []
  | (k2, v2) :: rest, k =>
      if k2 = k then hmRemove rest k else (k2, v2) :: hmRemove rest k

/-- `entry(k).or_insert_with(Vec::new).push(x)`: appends `x` to the key's
vector, creating the binding when absent. -/
def hmPush : List (Int × List Int) → Int → Int → List (Int × List Int)
  | [], k, x => [(k, [x])]
  | (k2, l) :: rest, k, x =>
      if k2 = k then (k2, l ++ [x]) :: rest else (k2, l) :: hmPush rest k x

/-- The pairing-removal block shared by `remove_client` and `update_client`:
`get_mut(k)`, `retain(|id| id != i)`, and deletion of the bucket when the
retained vector is empty (so an employee with no clients has no entry). -/
def pairsRemove (m : List (Int × List Int)) (k i : Int) : List (Int × List Int) :=
  match hmGet m k with
  | none => m
  | some client_list =>
      let l2 := client_list.filter (fun j => decide (j ≠ i))
      if l2 = [] then hmRemove m k else hmSet m k l2

/-- `EmployeeHandler` state: the lazily filled id→hash and id→employee maps
(the boxed database handle is passed separately as the `Db` oracle). -/
structure EmployeeHandler where
  stored_hashes : List (Int × String)
  stored_employees : List (Int × Employee)
deriving DecidableEq, Repr

namespace EmployeeHandler

/-- `EmployeeHandler::new`: starts with empty caches. -/
def new : EmployeeHandler :=
  { stored_hashes := [], stored_employees := [] }

/-- `EmployeeHandler::get_employee_hash`: serves a cached hash without any
store call; on a miss issues one `get_employee_hash` store call and caches a
returned hash before returning it. -/
def get_employee_hash (db : Db) (s : EmployeeHandler) (employee_id : Int) :
    Except AppError (Option String) × EmployeeHandler × List DbEvent :=
  match hmGet s.stored_hashes employee_id with
  | some hash => (.ok (some hash), s, [])
  | none =>
      match db.getEmployeeHashRes employee_id with
      | .error e => (.error e, s, [DbEvent.getEmployeeHashCall employee_id])
      | .ok (some hash) =>
          (.ok (some hash),
            { s with stored_hashes := hmSet s.stored_hashes employee_id hash },
            [DbEvent.getEmployeeHashCall employee_id])
      | .ok none => (.ok none, s, [DbEvent.getEmployeeHashCall employee_id])

/-- `EmployeeHandler::get_employee`: serves a cached employee without any
store call; on a miss issues one `get_employee` store call and populates
both caches from a returned record before returning it. -/
def get_employee (db : Db) (s : EmployeeHandler) (employee_id : Int) :
    Except AppError (Option Employee) × EmployeeHandler × List DbEvent :=
  match hmGet s.stored_employees employee_id with
  | some employee => (.ok (some employee), s, [])
  | none =>
      match db.getEmployeeRes employee_id with
      | .error e => (.error e, s, [DbEvent.getEmployeeCall employee_id])
      | .ok (some employee) =>
          (.ok (some employee),
            { stored_hashes := hmSet s.stored_hashes employee_id employee.get_employee_hash,
              stored_employees := hmSet s.stored_employees employee_id employee },
            [DbEvent.getEmployeeCall employee_id])
      | .ok none => (.ok none, s, [DbEvent.getEmployeeCall employee_id])

/-- `EmployeeHandler::is_valid_employee_id`: a `get_employee` call succeeds
and returns a record. -/
def is_valid_employee_id (db : Db) (s : EmployeeHandler) (employee_id : Int) :
    Except AppError Bool × EmployeeHandler × List DbEvent :=
  match get_employee db s employee_id with
  | (.error e, s2, evs) => (.error e, s2, evs)
  | (.ok res, s2, evs) => (.ok res.isSome, s2, evs)

/-- `EmployeeHandler::add_new_employee`: begin, remote `new_employee`, local
cache inserts, commit. -/
def add_new_employee (db : Db) (s : EmployeeHandler) (employee : Employee) :
    Except AppError Unit × EmployeeHandler × List DbEvent :=
  match Transaction.new db with
  | (.error e, ev0) => (.error e, s, ev0)
  | (.ok t, ev0) =>
      match db.newEmployeeRes employee with
      | .error e =>
          (.error e, s, ev0 ++ [DbEvent.newEmployeeCall employee] ++ t.dropEvents)
      | .ok _ =>
          let s1 : EmployeeHandler :=
            { stored_hashes :=
                hmSet s.stored_hashes employee.employee_id employee.get_employee_hash,
              stored_employees :=
                hmSet s.stored_employees employee.employee_id employee }
          match Transaction.commit db t with
          | (.error e, evc) =>
              (.error e, s1, ev0 ++ [DbEvent.newEmployeeCall employee] ++ evc)
          | (.ok _, evc) =>
              (.ok (), s1, ev0 ++ [DbEvent.newEmployeeCall employee] ++ evc)

/-- `EmployeeHandler::modify_employee`: begin, remote `update_employee`,
local cache inserts, commit. -/
def modify_employee (db : Db) (s : EmployeeHandler) (employee : Employee) :
    Except AppError Unit × EmployeeHandler × List DbEvent :=
  match Transaction.new db with
  | (.error e, ev0) => (.error e, s, ev0)
  | (.ok t, ev0) =>
      match db.updateEmployeeRes employee with
      | .error e =>
          (.error e, s, ev0 ++ [DbEvent.updateEmployeeCall employee] ++ t.dropEvents)
      | .ok _ =>
          let s1 : EmployeeHandler :=
            { stored_hashes :=
                hmSet s.stored_hashes employee.employee_id employee.get_employee_hash,
              stored_employees :=
                hmSet s.stored_employees employee.employee_id employee }
          match Transaction.commit db t with
          | (.error e, evc) =>
              (.error e, s1, ev0 ++ [DbEvent.updateEmployeeCall employee] ++ evc)
          | (.ok _, evc) =>
              (.ok (), s1, ev0 ++ [DbEvent.updateEmployeeCall employee] ++ evc)

/-- `EmployeeHandler::delete_employee`: begin, remote `remove_employee`,
local cache removals, commit. -/
def delete_employee (db : Db) (s : EmployeeHandler) (employee_id : Int) :
    Except AppError Unit × EmployeeHandler × List DbEvent :=
  match Transaction.new db with
  | (.error e, ev0) => (.error e, s, ev0)
  | (.ok t, ev0) =>
      match db.removeEmployeeRes employee_id with
      | .error e =>
          (.error e, s, ev0 ++ [DbEvent.removeEmployeeCall employee_id] ++ t.dropEvents)
      | .ok _ =>
          let s1 : EmployeeHandler :=
            { stored_hashes := hmRemove s.stored_hashes employee_id,
              stored_employees := hmRemove s.stored_employees employee_id }
          match Transaction.commit db t with
          | (.error e, evc) =>
              (.error e, s1, ev0 ++ [DbEvent.removeEmployeeCall employee_id] ++ evc)
          | (.ok _, evc) =>
              (.ok (), s1, ev0 ++ [DbEvent.removeEmployeeCall employee_id] ++ evc)

end EmployeeHandler

/-- `ClientHandler` state: the AVL tree of clients and the employee-id →
client-ids pairing map (the database handle is the separate `Db` oracle). -/
structure ClientHandler where
  local_avl_tree : AVLTree Client
  employee_client_pairs : List (Int × List Int)
deriving DecidableEq, Repr

namespace ClientHandler

/-- The loop body of `ClientHandler::new`: for each client fetched from the
store, push its id onto its employee's pairing bucket and then insert it
into the AVL tree, propagating an insert failure. -/
def buildLocal : AVLTree Client → List (Int × List Int) → List Client →
    Except AppError ClientHandler
  | t, m, [] => .ok { local_avl_tree := t, employee_client_pairs := m }
  | t, m, c :: rest =>
      let m1 := hmPush m c.asn_employee_id c.client_id
      match AVLTree.insert Client.get_key t c with
      | .error e => .error e
      | .ok t1 => buildLocal t1 m1 rest

/-- `ClientHandler::new`: eagerly loads all clients (the `get_clients`
result is passed as the list `clients`) into the tree and the pairing map;
any insert failure fails the whole construction. -/
def new (clients : List Client) : Except AppError ClientHandler :=
  buildLocal AVLTree.leaf [] clients

/-- `ClientHandler::get_client`: a pure AVL lookup; no store call is issued
(the client cache is fully loaded at construction). -/
def get_client (s : ClientHandler) (id : Int) :
    Except AppError Client × List DbEvent :=
  (AVLTree.find Client.get_key s.local_avl_tree id, [])

/-- `ClientHandler::get_clients_for_employee`: a pure pairing-map lookup;
no store call is issued. -/
def get_clients_for_employee (s : ClientHandler) (employee_id : Int) :
    Option (List Int) × List DbEvent :=
  (hmGet s.employee_client_pairs employee_id, [])

/-- `ClientHandler::update_client`: reads the cached record to compute the
old employee id, then begin / remote `update_client` / commit, and only
after a successful commit re-points the pairing map (when the employee
changed) and replaces the tree record via remove + insert. -/
def update_client (db : Db) (s : ClientHandler) (c : Client) :
    Except AppError Unit × ClientHandler × List DbEvent :=
  match AVLTree.find Client.get_key s.local_avl_tree c.client_id with
  | .error e => (.error e, s, [])
  | .ok old_client =>
      let old_employee_id := old_client.asn_employee_id
      match Transaction.new db with
      | (.error e, ev0) => (.error e, s, ev0)
      | (.ok t, ev0) =>
          match db.updateClientRes c with
          | .error e =>
              (.error e, s, ev0 ++ [DbEvent.updateClientCall c] ++ t.dropEvents)
          | .ok _ =>
              match Transaction.commit db t with
              | (.error e, evc) =>
                  (.error e, s, ev0 ++ [DbEvent.updateClientCall c] ++ evc)
              | (.ok _, evc) =>
                  let evs := ev0 ++ [DbEvent.updateClientCall c] ++ evc
                  let pairs1 :=
                    if old_employee_id = c.asn_employee_id then
                      s.employee_client_pairs
                    else
                      hmPush (pairsRemove s.employee_client_pairs old_employee_id c.client_id)
                        c.asn_employee_id c.client_id
                  match AVLTree.remove Client.get_key s.local_avl_tree c.client_id with
                  | .error e =>
                      (.error e,
                        { local_avl_tree := s.local_avl_tree,
                          employee_client_pairs := pairs1 }, evs)
                  | .ok t1 =>
                      match AVLTree.insert Client.get_key t1 c with
                      | .error e =>
                          (.error e,
                            { local_avl_tree := t1,
                              employee_client_pairs := pairs1 }, evs)
                      | .ok t2 =>
                          (.ok (),
                            { local_avl_tree := t2,
                              employee_client_pairs := pairs1 }, evs)

/-- `ClientHandler::new_client`: begin, remote `new_client`, then local AVL
insert and pairing push while the guard is live, then commit. -/
def new_client (db : Db) (s : ClientHandler) (c : Client) :
    Except AppError Unit × ClientHandler × List DbEvent :=
  match Transaction.new db with
  | (.error e, ev0) => (.error e, s, ev0)
  | (.ok t, ev0) =>
      match db.newClientRes c with
      | .error e =>
          (.error e, s, ev0 ++ [DbEvent.newClientCall c] ++ t.dropEvents)
      | .ok _ =>
          match AVLTree.insert Client.get_key s.local_avl_tree c with
          | .error e =>
              (.error e, s, ev0 ++ [DbEvent.newClientCall c] ++ t.dropEvents)
          | .ok t1 =>
              let s1 : ClientHandler :=
                { local_avl_tree := t1,
                  employee_client_pairs :=
                    hmPush s.employee_client_pairs c.asn_employee_id c.client_id }
              match Transaction.commit db t with
              | (.error e, evc) =>
                  (.error e, s1, ev0 ++ [DbEvent.newClientCall c] ++ evc)
              | (.ok _, evc) =>
                  (.ok (), s1, ev0 ++ [DbEvent.newClientCall c] ++ evc)

/-- `ClientHandler::remove_client`: begin, remote `remove_client`, then the
pairing-bucket removal keyed by the argument's assigned-employee id, the AVL
removal keyed by the argument's client id, then commit. -/
def remove_client (db : Db) (s : ClientHandler) (c : Client) :
    Except AppError Unit × ClientHandler × List DbEvent :=
  match Transaction.new db with
  | (.error e, ev0) => (.error e, s, ev0)
  | (.ok t, ev0) =>
      match db.removeClientRes c with
      | .error e =>
          (.error e, s, ev0 ++ [DbEvent.removeClientCall c] ++ t.dropEvents)
      | .ok _ =>
          let pairs1 := pairsRemove s.employee_client_pairs c.asn_employee_id c.client_id
          match AVLTree.remove Client.get_key s.local_avl_tree c.client_id with
          | .error e =>
              (.error e,
                { local_avl_tree := s.local_avl_tree,
                  employee_client_pairs := pairs1 },
                ev0 ++ [DbEvent.removeClientCall c] ++ t.dropEvents)
          | .ok t1 =>
              let s1 : ClientHandler :=
                { local_avl_tree := t1, employee_client_pairs := pairs1 }
              match Transaction.commit db t with
              | (.error e, evc) =>
                  (.error e, s1, ev0 ++ [DbEvent.removeClientCall c] ++ evc)
              | (.ok _, evc) =>
                  (.ok (), s1, ev0 ++ [DbEvent.removeClientCall c] ++ evc)

end ClientHandler

/-- A write operation invoked on a `ClientHandler` (reads take `&self` in
the source and cannot mutate the handler state). -/
inductive COp where
  | newC (c : Client)
  | updC (c : Client)
  | remC (c : Client)
deriving DecidableEq, Repr

/-- The handler state after one write operation: the state component of the
operation's result, whether the operation succeeded or failed (an in-place
`&mut self` method leaves whatever it wrote before an early return). -/
def applyCOp (db : Db) (s : ClientHandler) : COp → ClientHandler
  | .newC c => (ClientHandler.new_client db s c).2.1
  | .updC c => (ClientHandler.update_client db s c).2.1
  | .remC c => (ClientHandler.remove_client db s c).2.1

/-- Runs a sequence of write operations, each with its own store oracle. -/
def runCOps : ClientHandler → List (Db × COp) → ClientHandler
  | s, [] => s
  | s, (db, op) :: rest => runCOps (applyCOp db s op) rest

/-- Checks that every `remove_client` in the sequence is invoked, as the
interactive callers do, with the assigned-employee id currently cached for
that client id (vacuously true when the id is not cached). -/
def consistentRun : ClientHandler → List (Db × COp) → Bool
  | _, [] => true
  | s, (db, op) :: rest =>
      (match op with
       | COp.remC c =>
           match AVLTree.find Client.get_key s.local_avl_tree c.client_id with
           | .ok c0 => c0.asn_employee_id == c.asn_employee_id
           | .error _ => true
       | _ => true) && consistentRun (applyCOp db s op) rest

/-- An operation on the bare `BalancedIndex` (AVL tree): an insert of a
record or a removal by key. -/
inductive TOp (α : Type) where
  | ins (x : α)
  | del (k : Int)

/-- The tree after one `BalancedIndex` operation; a failed operation
(duplicate insert, absent-key removal) leaves the tree unchanged. -/
def applyTOp {α : Type} (key : α → Int) (t : AVLTree α) : TOp α → AVLTree α
  | .ins x =>
      match AVLTree.insert key t x with
      | .ok t2 => t2
      | .error _ => t
  | .del k =>
      match AVLTree.remove key t k with
      | .ok t2 => t2
      | .error _ => t

/-- Runs a sequence of `BalancedIndex` operations. -/
def runTOps {α : Type} (key : α → Int) : AVLTree α → List (TOp α) → AVLTree α
  | t, [] => t
  | t, op :: rest => runTOps key (applyTOp key t op) rest

/-- First-match lookup by key on a list of records, with the `find` error
convention. -/
def lookupE {α : Type} (key : α → Int) : List α → Int → Except AppError α
  | [], _ => .error .notFound
  | y :: ys, k => if key y = k then .ok y else lookupE key ys k

/-- Key-ordered list insertion: the list-level counterpart of AVL insert. -/
def insL {α : Type} (key : α → Int) : List α → α → List α
  | [], x => [x]
  | y :: ys, x => if key x < key y then x :: y :: ys else y :: insL key ys x

/-- Removal of the first record with the given key: the list-level
counterpart of AVL remove. -/
def removeL {α : Type} (key : α → Int) : List α → Int → List α
  | [], _ => []
  | y :: ys, k => if key y = k then ys else y :: removeL key ys k

/-- The consistency invariant coupling the client tree and the pairing map:
the tree is search-ordered, every pairing bucket is a non-empty list of ids
of cached clients assigned to that bucket's employee, and every cached
client's id sits in its assigned employee's bucket. -/
def CInv (s : ClientHandler) : Prop :=
  AVLTree.Ordered Client.get_key s.local_avl_tree ∧
  (∀ k l, hmGet s.employee_client_pairs k = some l →
      l ≠ [] ∧ ∀ i ∈ l, ∃ c, c ∈ AVLTree.inorder s.local_avl_tree ∧
        c.client_id = i ∧ c.asn_employee_id = k) ∧
  (∀ c, c ∈ AVLTree.inorder s.local_avl_tree →
      ∃ l, hmGet s.employee_client_pairs c.asn_employee_id = some l ∧
        c.client_id ∈ l)

/-- A store oracle on which every call succeeds (reads return nothing). -/
def dbOK : Db :=
  { beginRes := .ok (), commitRes := .ok (), rollbackRes := .ok (),
    newClientRes := fun _ => .ok (), updateClientRes := fun _ => .ok (),
    removeClientRes := fun _ => .ok (), newEmployeeRes := fun _ => .ok (),
    updateEmployeeRes := fun _ => .ok (), removeEmployeeRes := fun _ => .ok (),
    getEmployeeHashRes := fun _ => .ok none, getEmployeeRes := fun _ => .ok none }

/-- A store oracle on which `commit_transaction` fails and every other call
succeeds. -/
def dbCommitFail : Db :=
  { dbOK with commitRes := .error (.storeError "commit failed") }

/-- A store oracle on which every per-entity CRUD mutation fails while the
transaction-control calls succeed. -/
def dbCrudFail : Db :=
  { dbOK with
    newClientRes := fun _ => .error (.storeError "crud failed"),
    updateClientRes := fun _ => .error (.storeError "crud failed"),
    removeClientRes := fun _ => .error (.storeError "crud failed"),
    newEmployeeRes := fun _ => .error (.storeError "crud failed"),
    updateEmployeeRes := fun _ => .error (.storeError "crud failed"),
    removeEmployeeRes := fun _ => .error (.storeError "crud failed") }

/-- A store oracle whose employee reads find employee 3 with hash "h3". -/
def dbEmp3 : Db :=
  { dbOK with
    getEmployeeHashRes := fun id => if id = 3 then .ok (some "h3") else .ok none,
    getEmployeeRes := fun id =>
      if id = 3 then .ok (some { employee_id := 3, employee_name := "Eve",
                                 hashed_password := "h3" }) else .ok none }

/-- Client 42 as first cached: assigned to employee 7, Brokerage (1). -/
def cAna7 : Client :=
  { client_id := 42, client_name := "Ana", client_service := 1,
    asn_employee_id := 7 }

/-- Client 42 with the service changed, same assigned employee. -/
def cAna7s : Client :=
  { cAna7 with client_service := 2 }

/-- Client 42 re-pointed to employee 9. -/
def cAna9 : Client :=
  { cAna7 with asn_employee_id := 9 }

/-- Client 1, assigned to employee 7. -/
def cOne7 : Client :=
  { client_id := 1, client_name := "Bo", client_service := 1,
    asn_employee_id := 7 }

/-- Client 2, assigned to employee 7. -/
def cTwo7 : Client :=
  { client_id := 2, client_name := "Cy", client_service := 1,
    asn_employee_id := 7 }

/-- Client 1 with a forged assigned-employee id 9 (the tree caches 7). -/
def cOne9 : Client :=
  { cOne7 with asn_employee_id := 9 }

/-- Client 1 recreated under employee 5. -/
def cOne5 : Client :=
  { cOne7 with asn_employee_id := 5 }

/-- A handler caching exactly client 42 under employee 7. -/
def chAna : ClientHandler :=
  { local_avl_tree := AVLTree.node AVLTree.leaf cAna7 AVLTree.leaf,
    employee_client_pairs := [(7, [42])] }

/-- The empty client handler (construction from an empty store). -/
def chEmpty : ClientHandler :=
  { local_avl_tree := AVLTree.leaf, employee_client_pairs := [] }

/-- An employee fixture. -/
def empBob : Employee :=
  { employee_id := 11, employee_name := "Bob", hashed_password := "hb" }

/-- The tree of `chAna` after inserting client 1 (left child of client 42). -/
def treeAnaOne : AVLTree Client :=
  AVLTree.node (AVLTree.node AVLTree.leaf cOne7 AVLTree.leaf) cAna7 AVLTree.leaf

/-- The handler built from clients 1 and 2, both assigned to employee 7. -/
def chTwo : ClientHandler :=
  { local_avl_tree :=
      AVLTree.node AVLTree.leaf cOne7 (AVLTree.node AVLTree.leaf cTwo7 AVLTree.leaf),
    employee_client_pairs := [(7, [1, 2])] }

/-- The state after removing client 1 with a forged assigned-employee id and
recreating client 1 under employee 5 (all store calls succeeding). -/
def c6run : ClientHandler :=
  runCOps chTwo [(dbOK, COp.remC cOne9), (dbOK, COp.newC cOne5)]

/-- A store oracle on which every CRUD mutation and also
`rollback_transaction` fail. -/
def dbRollbackFail : Db :=
  { dbCrudFail with rollbackRes := .error (.storeError "rollback failed") }

/-! ### List-level lemmas about lookup, ordered insertion and removal -/

theorem lookupE_append {α : Type} (key : α → Int) (a b : List α) (k : Int) :
    lookupE key (a ++ b) k =
      match lookupE key a k with
      | .ok x => .ok x
      | .error _ => lookupE key b k := by
  induction a with
  | nil => simp [lookupE]
  | cons y ys ih =>
      by_cases h : key y = k <;> simp [lookupE, h, ih]

theorem lookupE_none {α : Type} (key : α → Int) (l : List α) (k : Int)
    (h : ∀ y ∈ l, key y ≠ k) : lookupE key l k = .error .notFound := by
  induction l with
  | nil => rfl
  | cons y ys ih =>
      have hy : key y ≠ k := h y (by simp)
      simp only [lookupE, hy, if_false]
      exact ih fun z hz => h z (by simp [hz])

theorem lookupE_ok_mem {α : Type} (key : α → Int) (l : List α) (k : Int) (x : α)
    (h : lookupE key l k = .ok x) : x ∈ l ∧ key x = k := by
  induction l with
  | nil => simp [lookupE] at h
  | cons y ys ih =>
      by_cases hy : key y = k
      · simp [lookupE, hy] at h
        subst h
        exact ⟨by simp, hy⟩
      · simp only [lookupE, hy, if_false] at h
        rcases ih h with ⟨h1, h2⟩
        exact ⟨by simp [h1], h2⟩

theorem mem_insL {α : Type} (key : α → Int) (l : List α) (x y : α) :
    y ∈ insL key l x ↔ y ∈ l ∨ y = x := by
  induction l with
  | nil => simp [insL, eq_comm]
  | cons z zs ih =>
      by_cases h : key x < key z
      · simp [insL, h, eq_comm]
        tauto
      · simp [insL, h, ih]
        tauto

theorem insL_append_lt {α : Type} (key : α → Int) (a b : List α) (x v : α)
    (h : key x < key v) :
    insL key (a ++ v :: b) x = insL key a x ++ v :: b := by
  induction a with
  | nil => simp [insL, h]
  | cons y ys ih =>
      by_cases hy : key x < key y <;> simp [insL, hy, ih]

theorem insL_append_gt {α : Type} (key : α → Int) (a b : List α) (x v : α)
    (ha : ∀ y ∈ a, key y < key x) (h : key v < key x) :
    insL key (a ++ v :: b) x = a ++ v :: insL key b x := by
  induction a with
  | nil =>
      have : ¬ key x < key v := by omega
      simp [insL, this]
  | cons y ys ih =>
      have hy : ¬ key x < key y := by
        have := ha y (by simp)
        omega
      simp only [List.cons_append, insL, hy, if_false, List.cons.injEq, true_and]
      exact ih fun z hz => ha z (by simp [hz])

theorem removeL_append_absent {α : Type} (key : α → Int) (a b : List α) (k : Int)
    (ha : ∀ y ∈ a, key y ≠ k) :
    removeL key (a ++ b) k = a ++ removeL key b k := by
  induction a with
  | nil => simp
  | cons y ys ih =>
      have hy : key y ≠ k := ha y (by simp)
      simp only [List.cons_append, removeL, hy, if_false, List.cons.injEq, true_and]
      exact ih fun z hz => ha z (by simp [hz])

theorem removeL_append_present {α : Type} (key : α → Int) (a b : List α) (k : Int)
    (ha : k ∈ a.map key) :
    removeL key (a ++ b) k = removeL key a k ++ b := by
  induction a with
  | nil => simp at ha
  | cons y ys ih =>
      by_cases hy : key y = k
      · simp [removeL, hy]
      · have hys : k ∈ ys.map key := by
          rw [List.map_cons, List.mem_cons] at ha
          rcases ha with ha | ha
          · exact absurd ha.symm hy
          · exact ha
        simp [removeL, hy, ih hys]

theorem mem_removeL {α : Type} (key : α → Int) (l : List α) (k : Int) (y : α)
    (hnd : (l.map key).Nodup) :
    y ∈ removeL key l k ↔ y ∈ l ∧ key y ≠ k := by
  induction l with
  | nil => simp [removeL]
  | cons z zs ih =>
      rw [List.map_cons, List.nodup_cons] at hnd
      have hnd2 : (zs.map key).Nodup := hnd.2
      by_cases hz : key z = k
      · have hzs : ∀ w ∈ zs, key w ≠ k := by
          intro w hw hwk
          exact hnd.1 (List.mem_map.mpr ⟨w, hw, hwk.trans hz.symm⟩)
        simp only [removeL, hz, if_true]
        constructor
        · intro hy
          exact ⟨by simp [hy], hzs y hy⟩
        · rintro ⟨hy, hyk⟩
          rcases List.mem_cons.mp hy with rfl | hy
          · exact absurd hz hyk
          · exact hy
      · simp only [removeL, hz, if_false, List.mem_cons, ih hnd2]
        constructor
        · rintro (rfl | ⟨hy, hyk⟩)
          · exact ⟨by simp, hz⟩
          · exact ⟨by simp [hy], hyk⟩
        · rintro ⟨rfl | hy, hyk⟩
          · exact Or.inl rfl
          · exact Or.inr ⟨hy, hyk⟩

theorem lookupE_insL_ne {α : Type} (key : α → Int) (l : List α) (x : α) (k : Int)
    (h : key x ≠ k) : lookupE key (insL key l x) k = lookupE key l k := by
  induction l with
  | nil => simp [insL, lookupE, h]
  | cons y ys ih =>
      by_cases hy : key x < key y
      · simp [insL, hy, lookupE, h]
      · simp [insL, hy, lookupE, ih]

theorem lookupE_insL_self {α : Type} (key : α → Int) (l : List α) (x : α)
    (h : key x ∉ l.map key) : lookupE key (insL key l x) (key x) = .ok x := by
  induction l with
  | nil => simp [insL, lookupE]
  | cons y ys ih =>
      have hy : key y ≠ key x := by
        intro hc
        exact h (by simp [hc])
      by_cases hlt : key x < key y
      · simp [insL, hlt, lookupE]
      · simp only [insL, hlt, if_false, lookupE, hy, if_false]
        exact ih fun hc => h (by simp [hc])

theorem lookupE_removeL_ne {α : Type} (key : α → Int) (l : List α) (k k2 : Int)
    (h : k2 ≠ k) : lookupE key (removeL key l k) k2 = lookupE key l k2 := by
  induction l with
  | nil => rfl
  | cons y ys ih =>
      by_cases hy : key y = k
      · simp [removeL, hy, lookupE, Ne.symm h]
      · by_cases hy2 : key y = k2 <;> simp [removeL, hy, lookupE, hy2, h, ih]

theorem map_key_removeL {α : Type} (key : α → Int) (l : List α) (k : Int) :
    (removeL key l k).map key = removeL (fun i => i) (l.map key) k := by
  induction l with
  | nil => rfl
  | cons y ys ih =>
      by_cases hy : key y = k <;> simp [removeL, hy, ih]

theorem not_mem_removeL_keys (l : List Int) (k : Int) (hnd : l.Nodup) :
    k ∉ removeL (fun i => i) l k := by
  induction l with
  | nil => simp [removeL]
  | cons y ys ih =>
      rcases List.nodup_cons.mp hnd with ⟨hy, hys⟩
      by_cases h : y = k
      · simp only [removeL, h, if_true]
        rw [h] at hy
        exact hy
      · simp only [removeL, h, if_false, List.mem_cons]
        rintro (rfl | hc)
        · exact h rfl
        · exact ih hys hc

/-! ### Association-list (HashMap model) lemmas -/

theorem hmGet_hmSet_self {β : Type} (m : List (Int × β)) (k : Int) (v : β) :
    hmGet (hmSet m k v) k = some v := by
  induction m with
  | nil => simp [hmSet, hmGet]
  | cons p rest ih =>
      by_cases h : p.1 = k
      · simp [hmSet, h, hmGet]
      · simp [hmSet, h, hmGet, ih]

theorem hmGet_hmSet_ne {β : Type} (m : List (Int × β)) (k k2 : Int) (v : β)
    (h : k2 ≠ k) : hmGet (hmSet m k v) k2 = hmGet m k2 := by
  induction m with
  | nil => simp [hmSet, hmGet, Ne.symm h]
  | cons p rest ih =>
      by_cases hp : p.1 = k
      · simp [hmSet, hp, hmGet, Ne.symm h]
      · by_cases hp2 : p.1 = k2 <;> simp [hmSet, hp, hmGet, hp2, h, ih]

theorem hmGet_hmRemove_self {β : Type} (m : List (Int × β)) (k : Int) :
    hmGet (hmRemove m k) k = none := by
  induction m with
  | nil => rfl
  | cons p rest ih =>
      by_cases h : p.1 = k <;> simp [hmRemove, h, hmGet, ih]

theorem hmGet_hmRemove_ne {β : Type} (m : List (Int × β)) (k k2 : Int)
    (h : k2 ≠ k) : hmGet (hmRemove m k) k2 = hmGet m k2 := by
  induction m with
  | nil => rfl
  | cons p rest ih =>
      by_cases hp : p.1 = k
      · simp [hmRemove, hp, hmGet, Ne.symm h, ih]
      · by_cases hp2 : p.1 = k2 <;> simp [hmRemove, hp, hmGet, hp2, h, ih]

theorem hmGet_hmPush_self (m : List (Int × List Int)) (k x : Int) :
    hmGet (hmPush m k x) k = some ((hmGet m k).getD [] ++ [x]) := by
  induction m with
  | nil => simp [hmPush, hmGet]
  | cons p rest ih =>
      by_cases h : p.1 = k
      · simp [hmPush, h, hmGet]
      · simp [hmPush, h, hmGet, ih]

theorem hmGet_hmPush_ne (m : List (Int × List Int)) (k k2 x : Int)
    (h : k2 ≠ k) : hmGet (hmPush m k x) k2 = hmGet m k2 := by
  induction m with
  | nil => simp [hmPush, hmGet, Ne.symm h]
  | cons p rest ih =>
      by_cases hp : p.1 = k
      · simp [hmPush, hp, hmGet, Ne.symm h]
      · by_cases hp2 : p.1 = k2 <;> simp [hmPush, hp, hmGet, hp2, h, ih]

/-! ### AVL tree: traversal and search-order lemmas -/

namespace AVLTree

theorem inorder_rebalance {α : Type} (l : AVLTree α) (v : α) (r : AVLTree α) :
    inorder (rebalance l v r) = inorder l ++ v :: inorder r := by
  unfold rebalance
  repeat' split
  all_goals simp [inorder]

theorem ordered_iff_pairwise {α : Type} (key : α → Int) (t : AVLTree α) :
    Ordered key t ↔ List.Pairwise (fun a b => key a < key b) (inorder t) := by
  induction t with
  | leaf => simp [Ordered, inorder]
  | node l v r ihl ihr =>
      simp only [Ordered, inorder, List.pairwise_append, List.pairwise_cons, ihl, ihr]
      constructor
      · rintro ⟨hbl, hbr, pl, pr⟩
        refine ⟨pl, ⟨hbr, pr⟩, ?_⟩
        intro a ha b hb
        rcases List.mem_cons.mp hb with rfl | hb
        · exact hbl a ha
        · exact lt_trans (hbl a ha) (hbr b hb)
      · rintro ⟨pl, ⟨hbr, pr⟩, hcross⟩
        refine ⟨fun y hy => hcross y hy v (by simp), hbr, pl, pr⟩

theorem ordered_node {α : Type} (key : α → Int) (l : AVLTree α) (v : α)
    (r : AVLTree α) (h : Ordered key (node l v r)) :
    (∀ y ∈ inorder l, key y < key v) ∧ (∀ y ∈ inorder r, key v < key y) ∧
      Ordered key l ∧ Ordered key r := h

theorem ordered_rebalance {α : Type} (key : α → Int) (l : AVLTree α) (v : α)
    (r : AVLTree α) (h : Ordered key (node l v r)) :
    Ordered key (rebalance l v r) := by
  rw [ordered_iff_pairwise, inorder_rebalance]
  exact (ordered_iff_pairwise key (node l v r)).mp h

theorem mem_keysL {α : Type} (key : α → Int) (t : AVLTree α) (k : Int) :
    k ∈ keysL key t ↔ ∃ y ∈ inorder t, key y = k := by
  simp [keysL]

theorem pairwise_key_unique {α : Type} (key : α → Int) (l : List α)
    (hp : List.Pairwise (fun a b => key a < key b) l) :
    ∀ y ∈ l, ∀ z ∈ l, key y = key z → y = z := by
  induction l with
  | nil => simp
  | cons a as ih =>
      rcases List.pairwise_cons.mp hp with ⟨ha, has⟩
      intro y hy z hz hk
      rcases List.mem_cons.mp hy with rfl | hy2
      · rcases List.mem_cons.mp hz with rfl | hz2
        · rfl
        · exact absurd hk (by have := ha z hz2; omega)
      · rcases List.mem_cons.mp hz with rfl | hz2
        · exact absurd hk (by have := ha y hy2; omega)
        · exact ih has y hy2 z hz2 hk

theorem ordered_mem_unique {α : Type} (key : α → Int) (t : AVLTree α)
    (h : Ordered key t) :
    ∀ y ∈ inorder t, ∀ z ∈ inorder t, key y = key z → y = z :=
  pairwise_key_unique key (inorder t) ((ordered_iff_pairwise key t).mp h)

theorem ordered_keys_nodup {α : Type} (key : α → Int) (t : AVLTree α)
    (h : Ordered key t) : (keysL key t).Nodup := by
  have hp := (ordered_iff_pairwise key t).mp h
  have : List.Pairwise (· < ·) ((inorder t).map key) :=
    List.pairwise_map.mpr hp
  exact this.imp fun hlt => by omega

theorem lookupE_error_shape {α : Type} (key : α → Int) (l : List α) (k : Int)
    (e : AppError) (h : lookupE key l k = .error e) : e = .notFound := by
  induction l with
  | nil =>
      rw [lookupE] at h
      injection h with h
      exact h.symm
  | cons y ys ih =>
      rw [lookupE] at h
      by_cases hy : key y = k
      · simp [hy] at h
      · simp only [hy, if_false] at h
        exact ih h

theorem find_eq_lookupE {α : Type} (key : α → Int) (t : AVLTree α) (k : Int)
    (h : Ordered key t) : find key t k = lookupE key (inorder t) k := by
  induction t with
  | leaf => rfl
  | node l v r ihl ihr =>
      obtain ⟨hbl, hbr, ol, orr⟩ := h
      rw [inorder, lookupE_append]
      by_cases h1 : k < key v
      · rw [find]
        simp only [h1, if_true]
        rw [ihl ol]
        cases hL : lookupE key (inorder l) k with
        | ok x => rfl
        | error e =>
            have he : e = .notFound := lookupE_error_shape key _ k e hL
            have : lookupE key (v :: inorder r) k = .error .notFound := by
              apply lookupE_none
              intro y hy
              rcases List.mem_cons.mp hy with rfl | hy
              · omega
              · have := hbr y hy
                omega
            rw [this, he]
      · by_cases h2 : key v < k
        · rw [find]
          simp only [h1, if_false, h2, if_true]
          have : lookupE key (inorder l) k = .error .notFound := by
            apply lookupE_none
            intro y hy hyk
            have := hbl y hy
            omega
          rw [this, ihr orr]
          have hvk : key v ≠ k := by omega
          simp [lookupE, hvk]
        · have hvk : key v = k := by omega
          rw [find]
          simp only [h1, if_false, h2, if_false]
          have : lookupE key (inorder l) k = .error .notFound := by
            apply lookupE_none
            intro y hy hyk
            have := hbl y hy
            omega
          rw [this]
          simp [lookupE, hvk]

theorem insert_ok_inorder {α : Type} (key : α → Int) (t : AVLTree α) (x : α)
    (t2 : AVLTree α) (hord : Ordered key t) (h : insert key t x = .ok t2) :
    inorder t2 = insL key (inorder t) x := by
  induction t generalizing t2 with
  | leaf =>
      simp [insert] at h
      subst h
      simp [inorder, insL]
  | node l v r ihl ihr =>
      obtain ⟨hbl, hbr, ol, orr⟩ := hord
      by_cases h1 : key x < key v
      · rw [insert] at h
        simp only [h1, if_true] at h
        cases hins : insert key l x with
        | error e => rw [hins] at h; cases h
        | ok l2 =>
            rw [hins] at h
            injection h with h
            subst h
            rw [inorder_rebalance, ihl l2 ol hins, inorder,
              insL_append_lt key _ _ _ _ h1]
      · by_cases h2 : key v < key x
        · rw [insert] at h
          simp only [h1, if_false, h2, if_true] at h
          cases hins : insert key r x with
          | error e => rw [hins] at h; cases h
          | ok r2 =>
              rw [hins] at h
              injection h with h
              subst h
              rw [inorder_rebalance, ihr r2 orr hins, inorder]
              rw [insL_append_gt key _ _ _ _ (fun y hy => lt_trans (hbl y hy) h2) h2]
        · rw [insert] at h
          simp only [h1, if_false, h2, if_false] at h
          cases h

theorem insert_error_of_mem {α : Type} (key : α → Int) (t : AVLTree α) (x : α)
    (hord : Ordered key t) (hmem : key x ∈ keysL key t) :
    insert key t x = .error .duplicateKey := by
  induction t with
  | leaf => simp [keysL, inorder] at hmem
  | node l v r ihl ihr =>
      obtain ⟨hbl, hbr, ol, orr⟩ := hord
      rw [mem_keysL] at hmem
      obtain ⟨y, hy, hyk⟩ := hmem
      rw [inorder] at hy
      by_cases h1 : key x < key v
      · have hyl : y ∈ inorder l := by
          rcases List.mem_append.mp hy with hy | hy
          · exact hy
          · rcases List.mem_cons.mp hy with rfl | hy
            · omega
            · have := hbr y hy
              omega
        have := ihl ol (mem_keysL key l (key x) |>.mpr ⟨y, hyl, hyk⟩)
        rw [insert]
        simp [h1, this]
      · by_cases h2 : key v < key x
        · have hyr : y ∈ inorder r := by
            rcases List.mem_append.mp hy with hy | hy
            · have := hbl y hy
              omega
            · rcases List.mem_cons.mp hy with rfl | hy
              · omega
              · exact hy
          have := ihr orr (mem_keysL key r (key x) |>.mpr ⟨y, hyr, hyk⟩)
          rw [insert]
          simp [h1, h2, this]
        · rw [insert]
          simp [h1, h2]

theorem insert_ok_of_not_mem {α : Type} (key : α → Int) (t : AVLTree α) (x : α)
    (hmem : key x ∉ keysL key t) :
    ∃ t2, insert key t x = .ok t2 := by
  induction t with
  | leaf => exact ⟨_, rfl⟩
  | node l v r ihl ihr =>
      rw [mem_keysL] at hmem
      push_neg at hmem
      by_cases h1 : key x < key v
      · obtain ⟨l2, hl2⟩ := ihl (by
          rw [mem_keysL]
          push_neg
          intro y hy
          exact hmem y (by rw [inorder]; simp [hy]))
        refine ⟨rebalance l2 v r, ?_⟩
        rw [insert]
        simp [h1, hl2]
      · by_cases h2 : key v < key x
        · obtain ⟨r2, hr2⟩ := ihr (by
            rw [mem_keysL]
            push_neg
            intro y hy
            exact hmem y (by rw [inorder]; simp [hy]))
          refine ⟨rebalance l v r2, ?_⟩
          rw [insert]
          simp [h1, h2, hr2]
        · have : key x = key v := by omega
          have := hmem v (by rw [inorder]; simp)
          omega

theorem insert_ok_not_mem {α : Type} (key : α → Int) (t : AVLTree α) (x : α)
    (t2 : AVLTree α) (hord : Ordered key t) (h : insert key t x = .ok t2) :
    key x ∉ keysL key t := by
  intro hmem
  rw [insert_error_of_mem key t x hord hmem] at h
  cases h

theorem remove_error_of_not_mem {α : Type} (key : α → Int) (t : AVLTree α)
    (k : Int) (hmem : k ∉ keysL key t) :
    remove key t k = .error .notFound := by
  induction t with
  | leaf => rfl
  | node l v r ihl ihr =>
      rw [mem_keysL] at hmem
      push_neg at hmem
      have hkv : key v ≠ k := hmem v (by rw [inorder]; simp)
      by_cases h1 : k < key v
      · have : remove key l k = .error .notFound := ihl (by
          rw [mem_keysL]
          push_neg
          intro y hy
          exact hmem y (by rw [inorder]; simp [hy]))
        rw [remove]
        simp [h1, this]
      · have h2 : key v < k := by omega
        have : remove key r k = .error .notFound := ihr (by
          rw [mem_keysL]
          push_neg
          intro y hy
          exact hmem y (by rw [inorder]; simp [hy]))
        rw [remove]
        simp [h1, h2, this]

theorem remove_ok_mem {α : Type} (key : α → Int) (t : AVLTree α) (k : Int)
    (t2 : AVLTree α) (h : remove key t k = .ok t2) : k ∈ keysL key t := by
  by_contra hmem
  rw [remove_error_of_not_mem key t k hmem] at h
  cases h

theorem remove_ok_of_mem {α : Type} (key : α → Int) (t : AVLTree α) (k : Int)
    (hord : Ordered key t) (hmem : k ∈ keysL key t) :
    ∃ t2, remove key t k = .ok t2 := by
  induction t with
  | leaf => simp [keysL, inorder] at hmem
  | node l v r ihl ihr =>
      obtain ⟨hbl, hbr, ol, orr⟩ := hord
      rw [mem_keysL] at hmem
      obtain ⟨y, hy, hyk⟩ := hmem
      rw [inorder] at hy
      by_cases h1 : k < key v
      · have hyl : y ∈ inorder l := by
          rcases List.mem_append.mp hy with hy | hy
          · exact hy
          · rcases List.mem_cons.mp hy with rfl | hy
            · omega
            · have := hbr y hy
              omega
        obtain ⟨l2, hl2⟩ := ihl ol (mem_keysL key l k |>.mpr ⟨y, hyl, hyk⟩)
        refine ⟨rebalance l2 v r, ?_⟩
        rw [remove]
        simp [h1, hl2]
      · by_cases h2 : key v < k
        · have hyr : y ∈ inorder r := by
            rcases List.mem_append.mp hy with hy | hy
            · have := hbl y hy
              omega
            · rcases List.mem_cons.mp hy with rfl | hy
              · omega
              · exact hy
          obtain ⟨r2, hr2⟩ := ihr orr (mem_keysL key r k |>.mpr ⟨y, hyr, hyk⟩)
          refine ⟨rebalance l v r2, ?_⟩
          rw [remove]
          simp [h1, h2, hr2]
        · rw [remove]
          simp only [h1, if_false, h2]
          cases hmin : removeMin r with
          | none => exact ⟨l, by simp [hmin]⟩
          | some p => exact ⟨rebalance l p.1 p.2, by simp [hmin]⟩

theorem removeMin_none {α : Type} (t : AVLTree α)
    (h : removeMin t = none) : t = .leaf := by
  cases t with
  | leaf => rfl
  | node l v r =>
      rw [removeMin] at h
      cases hmin : removeMin l with
      | none => rw [hmin] at h; cases h
      | some p => rw [hmin] at h; cases h

theorem removeMin_inorder {α : Type} (t : AVLTree α) (m : α) (t2 : AVLTree α)
    (h : removeMin t = some (m, t2)) : inorder t = m :: inorder t2 := by
  induction t generalizing m t2 with
  | leaf => cases h
  | node l v r ihl ihr =>
      rw [removeMin] at h
      cases hmin : removeMin l with
      | none =>
          rw [hmin] at h
          injection h with h
          rw [removeMin_none l hmin]
          cases h
          simp [inorder]
      | some p =>
          rw [hmin] at h
          injection h with h
          cases h
          rw [inorder, ihl p.1 p.2 (by rw [hmin]), inorder_rebalance]
          simp

theorem remove_ok_inorder {α : Type} (key : α → Int) (t : AVLTree α) (k : Int)
    (t2 : AVLTree α) (hord : Ordered key t) (h : remove key t k = .ok t2) :
    inorder t2 = removeL key (inorder t) k := by
  induction t generalizing t2 with
  | leaf => cases h
  | node l v r ihl ihr =>
      obtain ⟨hbl, hbr, ol, orr⟩ := hord
      by_cases h1 : k < key v
      · rw [remove] at h
        simp only [h1, if_true] at h
        cases hrem : remove key l k with
        | error e => rw [hrem] at h; cases h
        | ok l2 =>
            rw [hrem] at h
            injection h with h
            subst h
            have hmemL : k ∈ (inorder l).map key := remove_ok_mem key l k l2 hrem
            rw [inorder_rebalance, ihl l2 ol hrem, inorder,
              removeL_append_present key _ _ _ hmemL]
      · by_cases h2 : key v < k
        · rw [remove] at h
          simp only [h1, if_false, h2, if_true] at h
          cases hrem : remove key r k with
          | error e => rw [hrem] at h; cases h
          | ok r2 =>
              rw [hrem] at h
              injection h with h
              subst h
              rw [inorder_rebalance, ihr r2 orr hrem, inorder,
                removeL_append_absent key _ _ _
                  (fun y hy => by have := hbl y hy; omega)]
              have hkv : key v ≠ k := by omega
              simp [removeL, hkv]
        · have hkv : key v = k := by omega
          rw [remove] at h
          simp only [h1, if_false, h2, if_false] at h
          have habs : removeL key (inorder (node l v r)) k =
              inorder l ++ inorder r := by
            rw [inorder, removeL_append_absent key _ _ _
              (fun y hy => by have := hbl y hy; omega)]
            simp [removeL, hkv]
          cases hmin : removeMin r with
          | none =>
              rw [hmin] at h
              injection h with h
              subst h
              rw [habs, removeMin_none r hmin]
              simp [inorder]
          | some p =>
              rw [hmin] at h
              injection h with h
              subst h
              rw [inorder_rebalance, habs,
                removeMin_inorder r p.1 p.2 (by rw [hmin])]

theorem removeL_sublist {α : Type} (key : α → Int) (l : List α) (k : Int) :
    List.Sublist (removeL key l k) l := by
  induction l with
  | nil => simp [removeL]
  | cons y ys ih =>
      by_cases hy : key y = k
      · simp only [removeL, hy, if_true]
        exact List.Sublist.cons y (List.Sublist.refl ys)
      · simp only [removeL, hy, if_false]
        exact List.Sublist.cons₂ y ih

theorem pairwise_insL {α : Type} (key : α → Int) (l : List α) (x : α)
    (hp : List.Pairwise (fun a b => key a < key b) l)
    (hfresh : ∀ y ∈ l, key y ≠ key x) :
    List.Pairwise (fun a b => key a < key b) (insL key l x) := by
  induction l with
  | nil => simp [insL]
  | cons y ys ih =>
      rcases List.pairwise_cons.mp hp with ⟨hy, hys⟩
      by_cases hlt : key x < key y
      · simp only [insL, hlt, if_true]
        rw [List.pairwise_cons]
        constructor
        · intro z hz
          rcases List.mem_cons.mp hz with rfl | hz
          · exact hlt
          · have := hy z hz
            omega
        · exact hp
      · have hyx : key y < key x := by
          have := hfresh y (by simp)
          omega
        simp only [insL, hlt, if_false]
        rw [List.pairwise_cons]
        constructor
        · intro z hz
          rcases (mem_insL key ys x z).mp hz with hz | rfl
          · exact hy z hz
          · exact hyx
        · exact ih hys fun z hz => hfresh z (by simp [hz])

theorem ordered_insert {α : Type} (key : α → Int) (t : AVLTree α) (x : α)
    (t2 : AVLTree α) (hord : Ordered key t) (h : insert key t x = .ok t2) :
    Ordered key t2 := by
  rw [ordered_iff_pairwise, insert_ok_inorder key t x t2 hord h]
  apply pairwise_insL key _ _ ((ordered_iff_pairwise key t).mp hord)
  intro y hy hyk
  exact insert_ok_not_mem key t x t2 hord h ((mem_keysL key t (key x)).mpr ⟨y, hy, hyk⟩)

theorem ordered_remove {α : Type} (key : α → Int) (t : AVLTree α) (k : Int)
    (t2 : AVLTree α) (hord : Ordered key t) (h : remove key t k = .ok t2) :
    Ordered key t2 := by
  rw [ordered_iff_pairwise, remove_ok_inorder key t k t2 hord h]
  exact ((ordered_iff_pairwise key t).mp hord).sublist (removeL_sublist key _ k)

end AVLTree

/-! ### AVL tree: height and balance lemmas -/

namespace AVLTree

theorem rebalance_spec {α : Type} (l r : AVLTree α) (v : α)
    (hl : Balanced l) (hr : Balanced r)
    (h1 : height l ≤ height r + 2) (h2 : height r ≤ height l + 2) :
    Balanced (rebalance l v r) ∧
    max (height l) (height r) ≤ height (rebalance l v r) ∧
    height (rebalance l v r) ≤ max (height l) (height r) + 1 ∧
    (height l ≤ height r + 1 → height r ≤ height l + 1 →
      height (rebalance l v r) = max (height l) (height r) + 1) := by
  unfold rebalance
  split
  next hEq =>
    split
    next ll lv lr =>
      simp only [Balanced] at hl
      obtain ⟨bll, blr, d1, d2⟩ := hl
      split
      next hLL =>
        simp only [Balanced, height] at hEq ⊢
        refine ⟨⟨bll, ⟨blr, hr, ?_, ?_⟩, ?_, ?_⟩, ?_, ?_, fun hh1 hh2 => ?_⟩ <;> omega
      next hLL =>
        split
        next lrl lrv lrr =>
          simp only [Balanced] at blr
          obtain ⟨blrl, blrr, e1, e2⟩ := blr
          simp only [Balanced, height] at hEq hLL d1 d2 ⊢
          refine ⟨⟨⟨bll, blrl, ?_, ?_⟩, ⟨blrr, hr, ?_, ?_⟩, ?_, ?_⟩, ?_, ?_,
            fun hh1 hh2 => ?_⟩ <;> omega
        next =>
          exact absurd (by simp [height]) hLL
    next =>
      exact absurd hEq (by simp only [height]; omega)
  next hEq1 =>
    split
    next hEq2 =>
      split
      next rl rv rr =>
        simp only [Balanced] at hr
        obtain ⟨brl, brr, d1, d2⟩ := hr
        split
        next hRR =>
          simp only [Balanced, height] at hEq2 ⊢
          refine ⟨⟨⟨hl, brl, ?_, ?_⟩, brr, ?_, ?_⟩, ?_, ?_, fun hh1 hh2 => ?_⟩ <;> omega
        next hRR =>
          split
          next rll rlv rlr =>
            simp only [Balanced] at brl
            obtain ⟨brll, brlr, e1, e2⟩ := brl
            simp only [Balanced, height] at hEq2 hRR d1 d2 ⊢
            refine ⟨⟨⟨hl, brll, ?_, ?_⟩, ⟨brlr, brr, ?_, ?_⟩, ?_, ?_⟩, ?_, ?_,
              fun hh1 hh2 => ?_⟩ <;> omega
          next =>
            exact absurd (by simp [height]) hRR
      next =>
        exact absurd hEq2 (by simp only [height]; omega)
    next hEq2 =>
      simp only [Balanced, height]
      refine ⟨⟨hl, hr, ?_, ?_⟩, ?_, ?_, fun hh1 hh2 => ?_⟩ <;> first | trivial | omega

theorem insert_balanced {α : Type} (key : α → Int) (t : AVLTree α) (x : α)
    (t2 : AVLTree α) (hb : Balanced t) (h : insert key t x = .ok t2) :
    Balanced t2 ∧ height t ≤ height t2 ∧ height t2 ≤ height t + 1 := by
  induction t generalizing t2 with
  | leaf =>
      simp [insert] at h
      subst h
      simp [Balanced, height]
  | node l v r ihl ihr =>
      simp only [Balanced] at hb
      obtain ⟨bl, br, d1, d2⟩ := hb
      by_cases h1 : key x < key v
      · rw [insert] at h
        simp only [h1, if_true] at h
        cases hins : insert key l x with
        | error e => rw [hins] at h; cases h
        | ok l2 =>
            rw [hins] at h
            injection h with h
            subst h
            obtain ⟨bl2, g1, g2⟩ := ihl l2 bl hins
            obtain ⟨B, lo, hi, ex⟩ :=
              rebalance_spec l2 r v bl2 br (by omega) (by omega)
            by_cases hc : height l2 ≤ height r + 1 ∧ height r ≤ height l2 + 1
            · have hex := ex hc.1 hc.2
              refine ⟨B, ?_, ?_⟩ <;> (simp only [height]; omega)
            · rw [not_and_or] at hc
              push_neg at hc
              rcases hc with hc | hc <;>
                (refine ⟨B, ?_, ?_⟩ <;> (simp only [height]; omega))
      · by_cases h2 : key v < key x
        · rw [insert] at h
          simp only [h1, if_false, h2, if_true] at h
          cases hins : insert key r x with
          | error e => rw [hins] at h; cases h
          | ok r2 =>
              rw [hins] at h
              injection h with h
              subst h
              obtain ⟨br2, g1, g2⟩ := ihr r2 br hins
              obtain ⟨B, lo, hi, ex⟩ :=
                rebalance_spec l r2 v bl br2 (by omega) (by omega)
              by_cases hc : height l ≤ height r2 + 1 ∧ height r2 ≤ height l + 1
              · have hex := ex hc.1 hc.2
                refine ⟨B, ?_, ?_⟩ <;> (simp only [height]; omega)
              · rw [not_and_or] at hc
                push_neg at hc
                rcases hc with hc | hc <;>
                  (refine ⟨B, ?_, ?_⟩ <;> (simp only [height]; omega))
        · rw [insert] at h
          simp only [h1, if_false, h2, if_false] at h
          cases h

theorem removeMin_balanced {α : Type} (t : AVLTree α) (m : α) (t2 : AVLTree α)
    (hb : Balanced t) (h : removeMin t = some (m, t2)) :
    Balanced t2 ∧ height t2 ≤ height t ∧ height t ≤ height t2 + 1 := by
  induction t generalizing m t2 with
  | leaf => cases h
  | node l v r ihl ihr =>
      rw [removeMin] at h
      cases hmin : removeMin l with
      | none =>
          rw [hmin] at h
          injection h with h
          have hleaf := removeMin_none l hmin
          subst hleaf
          simp only [Balanced] at hb
          obtain ⟨bl, br, d1, d2⟩ := hb
          cases h
          refine ⟨br, ?_, ?_⟩ <;> (simp only [height] at d1 d2 ⊢; omega)
      | some p =>
          rw [hmin] at h
          injection h with h
          cases h
          simp only [Balanced] at hb
          obtain ⟨bl, br, d1, d2⟩ := hb
          obtain ⟨bl2, s1, s2⟩ := ihl p.1 p.2 bl (by rw [hmin])
          obtain ⟨B, lo, hi, ex⟩ :=
            rebalance_spec p.2 r v bl2 br (by omega) (by omega)
          by_cases hc : height p.2 ≤ height r + 1 ∧ height r ≤ height p.2 + 1
          · have hex := ex hc.1 hc.2
            refine ⟨B, ?_, ?_⟩ <;> (simp only [height]; omega)
          · rw [not_and_or] at hc
            push_neg at hc
            rcases hc with hc | hc <;>
              (refine ⟨B, ?_, ?_⟩ <;> (simp only [height]; omega))

theorem remove_balanced {α : Type} (key : α → Int) (t : AVLTree α) (k : Int)
    (t2 : AVLTree α) (hb : Balanced t) (h : remove key t k = .ok t2) :
    Balanced t2 ∧ height t2 ≤ height t ∧ height t ≤ height t2 + 1 := by
  induction t generalizing t2 with
  | leaf => cases h
  | node l v r ihl ihr =>
      simp only [Balanced] at hb
      obtain ⟨bl, br, d1, d2⟩ := hb
      by_cases h1 : k < key v
      · rw [remove] at h
        simp only [h1, if_true] at h
        cases hrem : remove key l k with
        | error e => rw [hrem] at h; cases h
        | ok l2 =>
            rw [hrem] at h
            injection h with h
            subst h
            obtain ⟨bl2, s1, s2⟩ := ihl l2 bl hrem
            obtain ⟨B, lo, hi, ex⟩ :=
              rebalance_spec l2 r v bl2 br (by omega) (by omega)
            by_cases hc : height l2 ≤ height r + 1 ∧ height r ≤ height l2 + 1
            · have hex := ex hc.1 hc.2
              refine ⟨B, ?_, ?_⟩ <;> (simp only [height]; omega)
            · rw [not_and_or] at hc
              push_neg at hc
              rcases hc with hc | hc <;>
                (refine ⟨B, ?_, ?_⟩ <;> (simp only [height]; omega))
      · by_cases h2 : key v < k
        · rw [remove] at h
          simp only [h1, if_false, h2, if_true] at h
          cases hrem : remove key r k with
          | error e => rw [hrem] at h; cases h
          | ok r2 =>
              rw [hrem] at h
              injection h with h
              subst h
              obtain ⟨br2, s1, s2⟩ := ihr r2 br hrem
              obtain ⟨B, lo, hi, ex⟩ :=
                rebalance_spec l r2 v bl br2 (by omega) (by omega)
              by_cases hc : height l ≤ height r2 + 1 ∧ height r2 ≤ height l + 1
              · have hex := ex hc.1 hc.2
                refine ⟨B, ?_, ?_⟩ <;> (simp only [height]; omega)
              · rw [not_and_or] at hc
                push_neg at hc
                rcases hc with hc | hc <;>
                  (refine ⟨B, ?_, ?_⟩ <;> (simp only [height]; omega))
        · rw [remove] at h
          simp only [h1, if_false, h2, if_false] at h
          cases hmin : removeMin r with
          | none =>
              rw [hmin] at h
              injection h with h
              subst h
              have hleaf := removeMin_none r hmin
              subst hleaf
              refine ⟨bl, ?_, ?_⟩ <;> (simp only [height] at d1 d2 ⊢; omega)
          | some p =>
              rw [hmin] at h
              injection h with h
              subst h
              obtain ⟨br2, s1, s2⟩ := removeMin_balanced r p.1 p.2 br (by rw [hmin])
              obtain ⟨B, lo, hi, ex⟩ :=
                rebalance_spec l p.2 p.1 bl br2 (by omega) (by omega)
              by_cases hc : height l ≤ height p.2 + 1 ∧ height p.2 ≤ height l + 1
              · have hex := ex hc.1 hc.2
                refine ⟨B, ?_, ?_⟩ <;> (simp only [height]; omega)
              · rw [not_and_or] at hc
                push_neg at hc
                rcases hc with hc | hc <;>
                  (refine ⟨B, ?_, ?_⟩ <;> (simp only [height]; omega))

theorem balanced_bfacOK {α : Type} (t : AVLTree α) (hb : Balanced t) :
    bfacOK t := by
  induction t with
  | leaf => trivial
  | node l v r ihl ihr =>
      simp only [Balanced] at hb
      obtain ⟨bl, br, d1, d2⟩ := hb
      exact ⟨by omega, ihl bl, ihr br⟩

end AVLTree

theorem applyTOp_inv {α : Type} (key : α → Int) (t : AVLTree α) (op : TOp α)
    (ho : AVLTree.Ordered key t) (hb : AVLTree.Balanced t) :
    AVLTree.Ordered key (applyTOp key t op) ∧
      AVLTree.Balanced (applyTOp key t op) := by
  cases op with
  | ins x =>
      rw [applyTOp]
      cases hins : AVLTree.insert key t x with
      | error e => exact ⟨ho, hb⟩
      | ok t2 =>
          exact ⟨AVLTree.ordered_insert key t x t2 ho hins,
            (AVLTree.insert_balanced key t x t2 hb hins).1⟩
  | del k =>
      rw [applyTOp]
      cases hrem : AVLTree.remove key t k with
      | error e => exact ⟨ho, hb⟩
      | ok t2 =>
          exact ⟨AVLTree.ordered_remove key t k t2 ho hrem,
            (AVLTree.remove_balanced key t k t2 hb hrem).1⟩

theorem runTOps_inv {α : Type} (key : α → Int) (ops : List (TOp α))
    (t : AVLTree α) (ho : AVLTree.Ordered key t) (hb : AVLTree.Balanced t) :
    AVLTree.Ordered key (runTOps key t ops) ∧
      AVLTree.Balanced (runTOps key t ops) := by
  induction ops generalizing t with
  | nil => exact ⟨ho, hb⟩
  | cons op rest ih =>
      rw [runTOps]
      obtain ⟨ho2, hb2⟩ := applyTOp_inv key t op ho hb
      exact ih (applyTOp key t op) ho2 hb2

/-! ### AVL tree: find and membership characterisations -/

namespace AVLTree

theorem find_ok_mem {α : Type} (key : α → Int) (t : AVLTree α) (k : Int) (x : α)
    (hord : Ordered key t) (h : find key t k = .ok x) :
    x ∈ inorder t ∧ key x = k := by
  rw [find_eq_lookupE key t k hord] at h
  exact lookupE_ok_mem key (inorder t) k x h

theorem lookupE_of_mem {α : Type} (key : α → Int) (l : List α) (c : α)
    (hmem : c ∈ l) (huniq : ∀ y ∈ l, ∀ z ∈ l, key y = key z → y = z) :
    lookupE key l (key c) = .ok c := by
  induction l with
  | nil => cases hmem
  | cons y ys ih =>
      by_cases hy : key y = key c
      · have : y = c := huniq y (by simp) c hmem hy
        simp [lookupE, hy, this]
      · have hmem2 : c ∈ ys := by
          rcases List.mem_cons.mp hmem with rfl | hm
          · exact absurd rfl hy
          · exact hm
        simp only [lookupE, hy, if_false]
        exact ih hmem2 fun a ha b hb => huniq a (by simp [ha]) b (by simp [hb])

theorem find_ok_of_mem {α : Type} (key : α → Int) (t : AVLTree α) (c : α)
    (hord : Ordered key t) (hmem : c ∈ inorder t) :
    find key t (key c) = .ok c := by
  rw [find_eq_lookupE key t (key c) hord]
  exact lookupE_of_mem key (inorder t) c hmem (ordered_mem_unique key t hord)

theorem find_error_of_not_mem {α : Type} (key : α → Int) (t : AVLTree α)
    (k : Int) (hord : Ordered key t) (hmem : k ∉ keysL key t) :
    find key t k = .error .notFound := by
  rw [find_eq_lookupE key t k hord]
  apply lookupE_none
  intro y hy hyk
  exact hmem ((mem_keysL key t k).mpr ⟨y, hy, hyk⟩)

theorem mem_insert_iff {α : Type} (key : α → Int) (t : AVLTree α) (x : α)
    (t2 : AVLTree α) (hord : Ordered key t) (h : insert key t x = .ok t2)
    (y : α) : y ∈ inorder t2 ↔ y ∈ inorder t ∨ y = x := by
  rw [insert_ok_inorder key t x t2 hord h]
  exact mem_insL key (inorder t) x y

theorem mem_remove_iff {α : Type} (key : α → Int) (t : AVLTree α) (k : Int)
    (t2 : AVLTree α) (hord : Ordered key t) (h : remove key t k = .ok t2)
    (y : α) : y ∈ inorder t2 ↔ y ∈ inorder t ∧ key y ≠ k := by
  rw [remove_ok_inorder key t k t2 hord h]
  exact mem_removeL key (inorder t) k y (ordered_keys_nodup key t hord)

theorem keys_remove_not_mem {α : Type} (key : α → Int) (t : AVLTree α)
    (k : Int) (t2 : AVLTree α) (hord : Ordered key t)
    (h : remove key t k = .ok t2) : k ∉ keysL key t2 := by
  rw [keysL, remove_ok_inorder key t k t2 hord h, map_key_removeL]
  exact not_mem_removeL_keys _ k (ordered_keys_nodup key t hord)

end AVLTree

/-! ### ClientHandler invariant preservation -/

theorem CInv_localAdd (s : ClientHandler) (c : Client) (t1 : AVLTree Client)
    (hinv : CInv s)
    (hins : AVLTree.insert Client.get_key s.local_avl_tree c = .ok t1) :
    CInv { local_avl_tree := t1,
           employee_client_pairs :=
             hmPush s.employee_client_pairs c.asn_employee_id c.client_id } := by
  unfold CInv at hinv ⊢
  dsimp only
  obtain ⟨ho, hsound, hcomp⟩ := hinv
  have hmemiff := AVLTree.mem_insert_iff Client.get_key s.local_avl_tree c t1 ho hins
  refine ⟨AVLTree.ordered_insert _ _ _ _ ho hins, ?_, ?_⟩
  · intro k l hget
    by_cases hk : k = c.asn_employee_id
    · subst hk
      rw [hmGet_hmPush_self] at hget
      injection hget with hget
      subst hget
      constructor
      · simp
      · intro i hi
        rw [List.mem_append] at hi
        rcases hi with hi | hi
        · cases hold : hmGet s.employee_client_pairs c.asn_employee_id with
          | none => rw [hold] at hi; simp at hi
          | some l0 =>
              rw [hold] at hi
              simp only [Option.getD_some] at hi
              obtain ⟨-, h2⟩ := hsound _ _ hold
              obtain ⟨c2, hc2mem, hc2id, hc2asn⟩ := h2 i hi
              exact ⟨c2, (hmemiff c2).mpr (Or.inl hc2mem), hc2id, hc2asn⟩
        · simp only [List.mem_singleton] at hi
          subst hi
          exact ⟨c, (hmemiff c).mpr (Or.inr rfl), rfl, rfl⟩
    · rw [hmGet_hmPush_ne _ _ _ _ hk] at hget
      obtain ⟨h1, h2⟩ := hsound _ _ hget
      refine ⟨h1, ?_⟩
      intro i hi
      obtain ⟨c2, hc2mem, hc2id, hc2asn⟩ := h2 i hi
      exact ⟨c2, (hmemiff c2).mpr (Or.inl hc2mem), hc2id, hc2asn⟩
  · intro c2 hc2
    rcases (hmemiff c2).mp hc2 with hc2 | rfl
    · obtain ⟨l, hl, hil⟩ := hcomp c2 hc2
      by_cases hk : c2.asn_employee_id = c.asn_employee_id
      · refine ⟨(hmGet s.employee_client_pairs c.asn_employee_id).getD [] ++
          [c.client_id], ?_, ?_⟩
        · rw [hk]
          exact hmGet_hmPush_self _ _ _
        · rw [hk] at hl
          rw [hl]
          simp [hil]
      · rw [hmGet_hmPush_ne _ _ _ _ hk]
        exact ⟨l, hl, hil⟩
    · exact ⟨_, hmGet_hmPush_self _ _ _, by simp⟩

theorem CInv_new_client (db : Db) (s : ClientHandler) (c : Client)
    (hinv : CInv s) : CInv (ClientHandler.new_client db s c).2.1 := by
  unfold ClientHandler.new_client Transaction.new
  cases hb : db.beginRes with
  | error e => simp only [hb]; exact hinv
  | ok u =>
      cases hcr : db.newClientRes c with
      | error e => simp only [hb, hcr]; exact hinv
      | ok u2 =>
          cases hins : AVLTree.insert Client.get_key s.local_avl_tree c with
          | error e => simp only [hb, hcr, hins]; exact hinv
          | ok t1 =>
              unfold Transaction.commit
              cases hcm : db.commitRes with
              | error e =>
                  simp only [hb, hcr, hins, hcm]
                  exact CInv_localAdd s c t1 hinv hins
              | ok u3 =>
                  simp only [hb, hcr, hins, hcm]
                  exact CInv_localAdd s c t1 hinv hins

theorem CInv_empty_state : CInv chEmpty := by
  unfold CInv chEmpty
  refine ⟨trivial, ?_, ?_⟩
  · intro k l h
    simp [hmGet] at h
  · intro c hc
    simp [AVLTree.inorder] at hc

theorem CInv_buildLocal (rest : List Client) :
    ∀ (t : AVLTree Client) (m : List (Int × List Int)) (s2 : ClientHandler),
      CInv { local_avl_tree := t, employee_client_pairs := m } →
      ClientHandler.buildLocal t m rest = .ok s2 → CInv s2 := by
  induction rest with
  | nil =>
      intro t m s2 hinv h
      simp only [ClientHandler.buildLocal] at h
      injection h with h
      subst h
      exact hinv
  | cons c rest ih =>
      intro t m s2 hinv h
      simp only [ClientHandler.buildLocal] at h
      cases hins : AVLTree.insert Client.get_key t c with
      | error e => rw [hins] at h; cases h
      | ok t1 =>
          rw [hins] at h
          exact ih t1 _ s2
            (CInv_localAdd { local_avl_tree := t, employee_client_pairs := m }
              c t1 hinv hins) h

theorem CInv_construction (clients : List Client) (s0 : ClientHandler)
    (h : ClientHandler.new clients = .ok s0) : CInv s0 :=
  CInv_buildLocal clients AVLTree.leaf [] s0 CInv_empty_state h

theorem hmGet_pairsRemove_ne (m : List (Int × List Int)) (k i k2 : Int)
    (h : k2 ≠ k) : hmGet (pairsRemove m k i) k2 = hmGet m k2 := by
  unfold pairsRemove
  cases hget : hmGet m k with
  | none => rfl
  | some l0 =>
      dsimp only
      split
      · exact hmGet_hmRemove_ne m k k2 h
      · exact hmGet_hmSet_ne m k k2 _ h

theorem hmGet_pairsRemove_self (m : List (Int × List Int)) (k i : Int) :
    hmGet (pairsRemove m k i) k =
      match hmGet m k with
      | none => none
      | some l0 =>
          if l0.filter (fun j => decide (j ≠ i)) = [] then none
          else some (l0.filter (fun j => decide (j ≠ i))) := by
  unfold pairsRemove
  cases hget : hmGet m k with
  | none => exact hget
  | some l0 =>
      dsimp only
      split
      next heq => exact hmGet_hmRemove_self m k
      next heq => exact hmGet_hmSet_self m k _

theorem CInv_localRemove_err (s : ClientHandler) (c : Client)
    (hinv : CInv s)
    (hnot : c.client_id ∉ AVLTree.keysL Client.get_key s.local_avl_tree) :
    CInv { local_avl_tree := s.local_avl_tree,
           employee_client_pairs :=
             pairsRemove s.employee_client_pairs c.asn_employee_id c.client_id } := by
  unfold CInv at hinv ⊢
  dsimp only
  obtain ⟨ho, hsound, hcomp⟩ := hinv
  have hpp : ∀ k, hmGet (pairsRemove s.employee_client_pairs c.asn_employee_id
      c.client_id) k = hmGet s.employee_client_pairs k := by
    intro k
    by_cases hk : k = c.asn_employee_id
    · subst hk
      rw [hmGet_pairsRemove_self]
      cases hold : hmGet s.employee_client_pairs c.asn_employee_id with
      | none => rfl
      | some l0 =>
          obtain ⟨hne, h2⟩ := hsound _ _ hold
          have hflt : l0.filter (fun j => decide (j ≠ c.client_id)) = l0 := by
            rw [List.filter_eq_self]
            intro i hi
            apply decide_eq_true
            intro hic
            obtain ⟨c2, hc2mem, hc2id, -⟩ := h2 i hi
            exact hnot ((AVLTree.mem_keysL _ _ _).mpr
              ⟨c2, hc2mem, by rw [Client.get_key, hc2id, hic]⟩)
          show (if l0.filter (fun j => decide (j ≠ c.client_id)) = [] then none
            else some (l0.filter (fun j => decide (j ≠ c.client_id)))) = some l0
          rw [hflt, if_neg hne]
    · exact hmGet_pairsRemove_ne _ _ _ _ hk
  refine ⟨ho, ?_, ?_⟩
  · intro k l hget
    rw [hpp] at hget
    exact hsound _ _ hget
  · intro c2 hc2
    obtain ⟨l, hl, hil⟩ := hcomp c2 hc2
    exact ⟨l, by rw [hpp]; exact hl, hil⟩

theorem CInv_localRemove_ok (s : ClientHandler) (c : Client) (t1 : AVLTree Client)
    (hinv : CInv s)
    (hrem : AVLTree.remove Client.get_key s.local_avl_tree c.client_id = .ok t1)
    (hc : ∀ c0, AVLTree.find Client.get_key s.local_avl_tree c.client_id = .ok c0 →
        c0.asn_employee_id = c.asn_employee_id) :
    CInv { local_avl_tree := t1,
           employee_client_pairs :=
             pairsRemove s.employee_client_pairs c.asn_employee_id c.client_id } := by
  unfold CInv at hinv ⊢
  dsimp only
  obtain ⟨ho, hsound, hcomp⟩ := hinv
  have hmemk : c.client_id ∈ AVLTree.keysL Client.get_key s.local_avl_tree :=
    AVLTree.remove_ok_mem _ _ _ _ hrem
  obtain ⟨y, hymem, hykey⟩ := (AVLTree.mem_keysL _ _ _).mp hmemk
  have hyfind : AVLTree.find Client.get_key s.local_avl_tree c.client_id = .ok y := by
    have := AVLTree.find_ok_of_mem Client.get_key s.local_avl_tree y ho hymem
    rwa [hykey] at this
  rw [Client.get_key] at hykey
  have hyasn : y.asn_employee_id = c.asn_employee_id := hc y hyfind
  have hmemiff := AVLTree.mem_remove_iff Client.get_key s.local_avl_tree
    c.client_id t1 ho hrem
  have huniq := AVLTree.ordered_mem_unique Client.get_key s.local_avl_tree ho
  refine ⟨AVLTree.ordered_remove _ _ _ _ ho hrem, ?_, ?_⟩
  · intro k l hget
    by_cases hk : k = c.asn_employee_id
    · subst hk
      rw [hmGet_pairsRemove_self] at hget
      cases hold : hmGet s.employee_client_pairs c.asn_employee_id with
      | none => rw [hold] at hget; cases hget
      | some l0 =>
          rw [hold] at hget
          dsimp only at hget
          by_cases hflt : l0.filter (fun j => decide (j ≠ c.client_id)) = []
          · rw [if_pos hflt] at hget; cases hget
          · rw [if_neg hflt] at hget
            injection hget with hget
            subst hget
            refine ⟨hflt, ?_⟩
            intro i hi
            rw [List.mem_filter] at hi
            obtain ⟨hi0, hine⟩ := hi
            have hine2 : i ≠ c.client_id := of_decide_eq_true hine
            obtain ⟨-, h2⟩ := hsound _ _ hold
            obtain ⟨c2, hc2mem, hc2id, hc2asn⟩ := h2 i hi0
            refine ⟨c2, (hmemiff c2).mpr ⟨hc2mem, ?_⟩, hc2id, hc2asn⟩
            rw [Client.get_key, hc2id]
            exact hine2
    · rw [hmGet_pairsRemove_ne _ _ _ _ hk] at hget
      obtain ⟨h1, h2⟩ := hsound _ _ hget
      refine ⟨h1, ?_⟩
      intro i hi
      obtain ⟨c2, hc2mem, hc2id, hc2asn⟩ := h2 i hi
      refine ⟨c2, (hmemiff c2).mpr ⟨hc2mem, ?_⟩, hc2id, hc2asn⟩
      intro hkey
      rw [Client.get_key] at hkey
      have hc2y : c2 = y := huniq c2 hc2mem y hymem (by
        simp only [Client.get_key]
        rw [hkey, hykey])
      apply hk
      rw [← hc2asn, hc2y, hyasn]
  · intro c2 hc2
    obtain ⟨hc2mem, hc2ne⟩ := (hmemiff c2).mp hc2
    rw [Client.get_key] at hc2ne
    obtain ⟨l, hl, hil⟩ := hcomp c2 hc2mem
    by_cases hk : c2.asn_employee_id = c.asn_employee_id
    · rw [hk] at hl
      have hmemflt : c2.client_id ∈ l.filter (fun j => decide (j ≠ c.client_id)) := by
        rw [List.mem_filter]
        exact ⟨hil, decide_eq_true hc2ne⟩
      have hne : l.filter (fun j => decide (j ≠ c.client_id)) ≠ [] := by
        intro hempty
        rw [hempty] at hmemflt
        cases hmemflt
      refine ⟨l.filter (fun j => decide (j ≠ c.client_id)), ?_, hmemflt⟩
      rw [hk, hmGet_pairsRemove_self, hl]
      dsimp only
      rw [if_neg hne]
    · rw [hmGet_pairsRemove_ne _ _ _ _ hk]
      exact ⟨l, hl, hil⟩

theorem CInv_remove_client (db : Db) (s : ClientHandler) (c : Client)
    (hinv : CInv s)
    (hc : ∀ c0, AVLTree.find Client.get_key s.local_avl_tree c.client_id = .ok c0 →
        c0.asn_employee_id = c.asn_employee_id) :
    CInv (ClientHandler.remove_client db s c).2.1 := by
  unfold ClientHandler.remove_client Transaction.new
  cases hb : db.beginRes with
  | error e => simp only [hb]; exact hinv
  | ok u =>
      cases hcr : db.removeClientRes c with
      | error e => simp only [hb, hcr]; exact hinv
      | ok u2 =>
          cases hrem : AVLTree.remove Client.get_key s.local_avl_tree c.client_id with
          | error e =>
              simp only [hb, hcr, hrem]
              apply CInv_localRemove_err s c hinv
              intro hmem
              obtain ⟨t1, ht1⟩ := AVLTree.remove_ok_of_mem Client.get_key
                s.local_avl_tree c.client_id hinv.1 hmem
              rw [ht1] at hrem
              cases hrem
          | ok t1 =>
              unfold Transaction.commit
              cases hcm : db.commitRes with
              | error e =>
                  simp only [hb, hcr, hrem, hcm]
                  exact CInv_localRemove_ok s c t1 hinv hrem hc
              | ok u3 =>
                  simp only [hb, hcr, hrem, hcm]
                  exact CInv_localRemove_ok s c t1 hinv hrem hc

theorem CInv_localReplace (s : ClientHandler) (c old : Client)
    (t1 t2 : AVLTree Client) (hinv : CInv s)
    (hfind : AVLTree.find Client.get_key s.local_avl_tree c.client_id = .ok old)
    (hasn : old.asn_employee_id = c.asn_employee_id)
    (hrem : AVLTree.remove Client.get_key s.local_avl_tree c.client_id = .ok t1)
    (hins : AVLTree.insert Client.get_key t1 c = .ok t2) :
    CInv { local_avl_tree := t2,
           employee_client_pairs := s.employee_client_pairs } := by
  unfold CInv at hinv ⊢
  dsimp only
  obtain ⟨ho, hsound, hcomp⟩ := hinv
  obtain ⟨holdmem, holdkey⟩ :=
    AVLTree.find_ok_mem Client.get_key s.local_avl_tree c.client_id old ho hfind
  rw [Client.get_key] at holdkey
  have ho1 : AVLTree.Ordered Client.get_key t1 :=
    AVLTree.ordered_remove _ _ _ _ ho hrem
  have hmem1 := AVLTree.mem_remove_iff Client.get_key s.local_avl_tree
    c.client_id t1 ho hrem
  have hmem2 := AVLTree.mem_insert_iff Client.get_key t1 c t2 ho1 hins
  have huniq := AVLTree.ordered_mem_unique Client.get_key s.local_avl_tree ho
  refine ⟨AVLTree.ordered_insert _ _ _ _ ho1 hins, ?_, ?_⟩
  · intro k l hget
    obtain ⟨h1, h2⟩ := hsound _ _ hget
    refine ⟨h1, ?_⟩
    intro i hi
    obtain ⟨c2, hc2mem, hc2id, hc2asn⟩ := h2 i hi
    by_cases hic : i = c.client_id
    · -- the replaced record: by key uniqueness c2 is the old record
      have hc2old : c2 = old := huniq c2 hc2mem old holdmem (by
        simp only [Client.get_key]
        rw [hc2id, hic, holdkey])
      refine ⟨c, (hmem2 c).mpr (Or.inr rfl), hic.symm, ?_⟩
      rw [← hasn, ← hc2old, hc2asn]
    · refine ⟨c2, (hmem2 c2).mpr (Or.inl ((hmem1 c2).mpr ⟨hc2mem, ?_⟩)), hc2id, hc2asn⟩
      rw [Client.get_key, hc2id]
      exact hic
  · intro c2 hc2
    rcases (hmem2 c2).mp hc2 with hc2m | rfl
    · obtain ⟨hc2mem, -⟩ := (hmem1 c2).mp hc2m
      exact hcomp c2 hc2mem
    · obtain ⟨l, hl, hil⟩ := hcomp old holdmem
      rw [hasn] at hl
      rw [holdkey] at hil
      exact ⟨l, hl, hil⟩

theorem CInv_update_client (db : Db) (s : ClientHandler) (c : Client)
    (hinv : CInv s) : CInv (ClientHandler.update_client db s c).2.1 := by
  unfold ClientHandler.update_client Transaction.new
  cases hfind : AVLTree.find Client.get_key s.local_avl_tree c.client_id with
  | error e => exact hinv
  | ok old =>
      cases hb : db.beginRes with
      | error e => simp only [hb]; exact hinv
      | ok u =>
          cases hcr : db.updateClientRes c with
          | error e => simp only [hb, hcr]; exact hinv
          | ok u2 =>
              unfold Transaction.commit
              cases hcm : db.commitRes with
              | error e => simp only [hb, hcr, hcm]; exact hinv
              | ok u3 =>
                  simp only [hb, hcr, hcm]
                  -- the removal and reinsertion both succeed
                  obtain ⟨holdmem, holdkey⟩ :=
                    AVLTree.find_ok_mem Client.get_key s.local_avl_tree
                      c.client_id old hinv.1 hfind
                  obtain ⟨t1, hrem⟩ := AVLTree.remove_ok_of_mem Client.get_key
                    s.local_avl_tree c.client_id hinv.1
                    ((AVLTree.mem_keysL _ _ _).mpr ⟨old, holdmem, holdkey⟩)
                  obtain ⟨t2, hins⟩ := AVLTree.insert_ok_of_not_mem Client.get_key
                    t1 c (by
                      have := AVLTree.keys_remove_not_mem Client.get_key
                        s.local_avl_tree c.client_id t1 hinv.1 hrem
                      rwa [show Client.get_key c = c.client_id from rfl])
                  simp only [hrem, hins]
                  by_cases hchg : old.asn_employee_id = c.asn_employee_id
                  · rw [if_pos hchg]
                    exact CInv_localReplace s c old t1 t2 hinv hfind hchg hrem hins
                  · rw [if_neg hchg]
                    have hstep1 : CInv ⟨t1, pairsRemove s.employee_client_pairs
                        old.asn_employee_id c.client_id⟩ := by
                      have hrem2 : AVLTree.remove Client.get_key s.local_avl_tree
                          old.client_id = .ok t1 := by
                        rw [show old.client_id = c.client_id from holdkey]
                        exact hrem
                      have := CInv_localRemove_ok s old t1 hinv hrem2 (by
                        intro c0 hc0
                        rw [show old.client_id = c.client_id from holdkey] at hc0
                        rw [hfind] at hc0
                        injection hc0 with hc0
                        rw [← hc0])
                      rwa [show old.client_id = c.client_id from holdkey] at this
                    have hstep2 := CInv_localAdd ⟨t1, pairsRemove
                      s.employee_client_pairs old.asn_employee_id c.client_id⟩
                      c t2 hstep1 hins
                    exact hstep2

theorem CInv_runCOps (ops : List (Db × COp)) :
    ∀ s : ClientHandler, CInv s → consistentRun s ops = true →
      CInv (runCOps s ops) := by
  induction ops with
  | nil => intro s h _; exact h
  | cons p rest ih =>
      obtain ⟨db, op⟩ := p
      intro s h hc
      rw [runCOps]
      cases op with
      | newC c =>
          simp only [consistentRun, Bool.true_and] at hc
          exact ih _ (CInv_new_client db s c h) hc
      | updC c =>
          simp only [consistentRun, Bool.true_and] at hc
          exact ih _ (CInv_update_client db s c h) hc
      | remC c =>
          simp only [consistentRun, Bool.and_eq_true] at hc
          obtain ⟨hc1, hc2⟩ := hc
          refine ih _ (CInv_remove_client db s c h ?_) hc2
          intro c0 hc0
          rw [hc0] at hc1
          exact eq_of_beq hc1

theorem CInv_exactly_one (s : ClientHandler) (h : CInv s) :
    (∀ c2, c2 ∈ AVLTree.inorder s.local_avl_tree →
      ∃ l, hmGet s.employee_client_pairs c2.asn_employee_id = some l ∧
        c2.client_id ∈ l ∧
        ∀ k2 l2, hmGet s.employee_client_pairs k2 = some l2 →
          c2.client_id ∈ l2 → k2 = c2.asn_employee_id) ∧
    (∀ k l, hmGet s.employee_client_pairs k = some l → l ≠ []) ∧
    (∀ k l, hmGet s.employee_client_pairs k = some l →
      ∀ i ∈ l, ∃ c2, c2 ∈ AVLTree.inorder s.local_avl_tree ∧
        c2.client_id = i ∧ c2.asn_employee_id = k) := by
  unfold CInv at h
  obtain ⟨ho, hsound, hcomp⟩ := h
  refine ⟨?_, fun k l hg => (hsound k l hg).1, fun k l hg => (hsound k l hg).2⟩
  intro c2 hc2
  obtain ⟨l, hl, hil⟩ := hcomp c2 hc2
  refine ⟨l, hl, hil, ?_⟩
  intro k2 l2 hg2 hmem2
  obtain ⟨-, h2⟩ := hsound k2 l2 hg2
  obtain ⟨c3, hc3mem, hc3id, hc3asn⟩ := h2 _ hmem2
  have hc32 : c3 = c2 := AVLTree.ordered_mem_unique _ _ ho c3 hc3mem c2 hc2 (by
    simp only [Client.get_key]
    rw [hc3id])
  rw [← hc3asn, hc32]

/-! ### Claim theorems -/

/-- C1 counterexample: on a store whose `commit_transaction` fails, a pending
guard's `commit()` is followed by a `rollback_transaction` call — the guard is
dropped inside `commit` with `completed` still false — so a rollback IS issued
after the failed commit, contrary to the claim that scope exit performs no
second finalization there. -/
theorem c1_counterexample :
    (Transaction.commit dbCommitFail { completed := false }).1 =
      .error (.storeError "commit failed") ∧
    (Transaction.commit dbCommitFail { completed := false }).2 =
      [DbEvent.commitT, DbEvent.rollbackT] ∧
    DbEvent.rollbackT ∈ (Transaction.commit dbCommitFail { completed := false }).2 := by
  exact ⟨rfl, rfl, by decide⟩

/-- C1 (amended): a pending transaction whose `commit()` succeeds finalizes
with exactly the commit call and no rollback; when `commit_transaction`
fails, the commit error is surfaced and the guard — dropped inside `commit`
with `completed` still false — additionally issues exactly one
`rollback_transaction`, so the store sees the failed commit followed by one
rollback rather than a commit-only finalization. -/
theorem c1_commit_finalization (db : Db) (t : Transaction) (e : AppError)
    (hp : t.completed = false) :
    (db.commitRes = .error e →
      Transaction.commit db t = (.error e, [DbEvent.commitT, DbEvent.rollbackT])) ∧
    (db.commitRes = .ok () →
      Transaction.commit db t = (.ok (), [DbEvent.commitT])) := by
  constructor
  · intro h
    unfold Transaction.commit Transaction.dropEvents
    rw [h, hp]
    rfl
  · intro h
    unfold Transaction.commit Transaction.dropEvents
    rw [h]
    rfl

/-- C1 witness: the amended statement evaluated on a commit-failing store and
on an all-succeeding store. -/
theorem c1_commit_finalization_witness :
    Transaction.commit dbCommitFail { completed := false } =
      (.error (.storeError "commit failed"), [DbEvent.commitT, DbEvent.rollbackT]) ∧
    Transaction.commit dbOK { completed := false } = (.ok (), [DbEvent.commitT]) :=
  ⟨(c1_commit_finalization dbCommitFail { completed := false }
      (.storeError "commit failed") rfl).1 rfl,
   (c1_commit_finalization dbOK { completed := false }
      (.storeError "commit failed") rfl).2 rfl⟩

/-- C3: for each of the six handler write operations, when the remote CRUD
call issued through the transaction fails, the error is propagated, the
guard's scope exit issues the rollback, and the handler state is returned
exactly unchanged (local structures untouched). -/
theorem c3_remote_failure_rollback (db : Db) (s : ClientHandler)
    (se : EmployeeHandler) (c : Client) (emp : Employee) (eid : Int)
    (e : AppError) (old : Client)
    (hb : db.beginRes = .ok ()) :
    (AVLTree.find Client.get_key s.local_avl_tree c.client_id = .ok old →
      db.updateClientRes c = .error e →
      ClientHandler.update_client db s c =
        (.error e, s,
          [DbEvent.beginT, DbEvent.updateClientCall c, DbEvent.rollbackT])) ∧
    (db.newClientRes c = .error e →
      ClientHandler.new_client db s c =
        (.error e, s,
          [DbEvent.beginT, DbEvent.newClientCall c, DbEvent.rollbackT])) ∧
    (db.removeClientRes c = .error e →
      ClientHandler.remove_client db s c =
        (.error e, s,
          [DbEvent.beginT, DbEvent.removeClientCall c, DbEvent.rollbackT])) ∧
    (db.newEmployeeRes emp = .error e →
      EmployeeHandler.add_new_employee db se emp =
        (.error e, se,
          [DbEvent.beginT, DbEvent.newEmployeeCall emp, DbEvent.rollbackT])) ∧
    (db.updateEmployeeRes emp = .error e →
      EmployeeHandler.modify_employee db se emp =
        (.error e, se,
          [DbEvent.beginT, DbEvent.updateEmployeeCall emp, DbEvent.rollbackT])) ∧
    (db.removeEmployeeRes eid = .error e →
      EmployeeHandler.delete_employee db se eid =
        (.error e, se,
          [DbEvent.beginT, DbEvent.removeEmployeeCall eid, DbEvent.rollbackT])) := by
  refine ⟨?_, ?_, ?_, ?_, ?_, ?_⟩
  · intro h1 h2
    simp [ClientHandler.update_client, Transaction.new, Transaction.dropEvents,
      h1, hb, h2]
  · intro h2
    simp [ClientHandler.new_client, Transaction.new, Transaction.dropEvents, hb, h2]
  · intro h2
    simp [ClientHandler.remove_client, Transaction.new, Transaction.dropEvents, hb, h2]
  · intro h2
    simp [EmployeeHandler.add_new_employee, Transaction.new, Transaction.dropEvents,
      hb, h2]
  · intro h2
    simp [EmployeeHandler.modify_employee, Transaction.new, Transaction.dropEvents,
      hb, h2]
  · intro h2
    simp [EmployeeHandler.delete_employee, Transaction.new, Transaction.dropEvents,
      hb, h2]

/-- C3 witness: all six operations evaluated on a store whose CRUD mutations
fail while transaction control succeeds. -/
theorem c3_remote_failure_rollback_witness :
    ClientHandler.update_client dbCrudFail chAna cAna7s =
      (.error (.storeError "crud failed"), chAna,
        [DbEvent.beginT, DbEvent.updateClientCall cAna7s, DbEvent.rollbackT]) ∧
    ClientHandler.new_client dbCrudFail chAna cOne7 =
      (.error (.storeError "crud failed"), chAna,
        [DbEvent.beginT, DbEvent.newClientCall cOne7, DbEvent.rollbackT]) ∧
    ClientHandler.remove_client dbCrudFail chAna cAna7 =
      (.error (.storeError "crud failed"), chAna,
        [DbEvent.beginT, DbEvent.removeClientCall cAna7, DbEvent.rollbackT]) ∧
    EmployeeHandler.add_new_employee dbCrudFail EmployeeHandler.new empBob =
      (.error (.storeError "crud failed"), EmployeeHandler.new,
        [DbEvent.beginT, DbEvent.newEmployeeCall empBob, DbEvent.rollbackT]) ∧
    EmployeeHandler.modify_employee dbCrudFail EmployeeHandler.new empBob =
      (.error (.storeError "crud failed"), EmployeeHandler.new,
        [DbEvent.beginT, DbEvent.updateEmployeeCall empBob, DbEvent.rollbackT]) ∧
    EmployeeHandler.delete_employee dbCrudFail EmployeeHandler.new 11 =
      (.error (.storeError "crud failed"), EmployeeHandler.new,
        [DbEvent.beginT, DbEvent.removeEmployeeCall 11, DbEvent.rollbackT]) := by
  have h := c3_remote_failure_rollback dbCrudFail chAna EmployeeHandler.new
    cAna7s empBob 11 (.storeError "crud failed") cAna7 rfl
  have h2 := c3_remote_failure_rollback dbCrudFail chAna EmployeeHandler.new
    cOne7 empBob 11 (.storeError "crud failed") cAna7 rfl
  have h3 := c3_remote_failure_rollback dbCrudFail chAna EmployeeHandler.new
    cAna7 empBob 11 (.storeError "crud failed") cAna7 rfl
  exact ⟨h.1 rfl rfl, h2.2.1 rfl, h3.2.2.1 rfl, h.2.2.2.1 rfl,
    h.2.2.2.2.1 rfl, h.2.2.2.2.2 rfl⟩

/-- C7: a guard discarded while still pending issues `rollback_transaction`
exactly once (a completed guard issues nothing), the rollback call's own
result is discarded, and the original triggering error is the one surfaced:
shown on `new_client` with a failing remote CRUD call over an arbitrary
oracle, whose `rollbackRes` is unconstrained — a failing rollback is
swallowed and cannot mask the CRUD error. -/
theorem c7_pending_drop_rollback (db : Db) (s : ClientHandler) (c : Client)
    (e : AppError) (hb : db.beginRes = .ok ())
    (hcr : db.newClientRes c = .error e) :
    Transaction.dropEvents { completed := false } = [DbEvent.rollbackT] ∧
    Transaction.dropEvents { completed := true } = [] ∧
    (ClientHandler.new_client db s c).1 = .error e ∧
    (ClientHandler.new_client db s c).2.2 =
      [DbEvent.beginT, DbEvent.newClientCall c, DbEvent.rollbackT] ∧
    (ClientHandler.new_client db s c).2.2.count DbEvent.rollbackT = 1 := by
  have hop : ClientHandler.new_client db s c =
      (.error e, s, [DbEvent.beginT, DbEvent.newClientCall c, DbEvent.rollbackT]) := by
    simp [ClientHandler.new_client, Transaction.new, Transaction.dropEvents, hb, hcr]
  rw [hop]
  exact ⟨rfl, rfl, rfl, rfl, rfl⟩

/-- C7 witness: evaluated on a store whose rollback call itself fails — the
CRUD error is still the one surfaced and exactly one rollback is issued. -/
theorem c7_pending_drop_rollback_witness :
    (ClientHandler.new_client dbRollbackFail chEmpty cOne7).1 =
      .error (.storeError "crud failed") ∧
    (ClientHandler.new_client dbRollbackFail chEmpty cOne7).2.2.count
      DbEvent.rollbackT = 1 := by
  have h := c7_pending_drop_rollback dbRollbackFail chEmpty cOne7
    (.storeError "crud failed") rfl rfl
  exact ⟨h.2.2.1, h.2.2.2.2⟩

/-- C2 counterexample: `ClientHandler::update_client` commits the transaction
BEFORE touching the local structures, so on a commit failure the handler
state is returned exactly unchanged and `get_client` still yields the
pre-update record — contradicting the claim that for every write operation
the local structures are already mutated when `commitTransaction` is issued
(so that a commit failure leaves the cache holding the new value). -/
theorem c2_counterexample :
    (ClientHandler.update_client dbCommitFail chAna cAna7s).1 =
      .error (.storeError "commit failed") ∧
    (ClientHandler.update_client dbCommitFail chAna cAna7s).2.1 = chAna ∧
    ClientHandler.get_client
      (ClientHandler.update_client dbCommitFail chAna cAna7s).2.1 42 =
      (.ok cAna7, []) ∧
    cAna7 ≠ cAna7s :=
  ⟨rfl, rfl, rfl, by decide⟩

/-- C2 (amended): for `new_client`, `remove_client` and the three
`EmployeeHandler` write operations the local structures are mutated before
`commitTransaction` is issued, so a commit failure propagates the error with
the local cache already holding the new value while the store does not;
`update_client` alone issues the commit first, so a commit failure there
leaves the local structures exactly unchanged. -/
theorem c2_mutation_vs_commit_order (db : Db) (s : ClientHandler)
    (se : EmployeeHandler) (c : Client) (emp : Employee) (eid : Int)
    (e : AppError) (t1 t1r : AVLTree Client) (old : Client)
    (hb : db.beginRes = .ok ()) (hcm : db.commitRes = .error e) :
    (db.newClientRes c = .ok () →
      AVLTree.insert Client.get_key s.local_avl_tree c = .ok t1 →
      ClientHandler.new_client db s c =
        (.error e,
          ⟨t1, hmPush s.employee_client_pairs c.asn_employee_id c.client_id⟩,
          [DbEvent.beginT, DbEvent.newClientCall c, DbEvent.commitT,
            DbEvent.rollbackT])) ∧
    (db.removeClientRes c = .ok () →
      AVLTree.remove Client.get_key s.local_avl_tree c.client_id = .ok t1r →
      ClientHandler.remove_client db s c =
        (.error e,
          ⟨t1r, pairsRemove s.employee_client_pairs c.asn_employee_id c.client_id⟩,
          [DbEvent.beginT, DbEvent.removeClientCall c, DbEvent.commitT,
            DbEvent.rollbackT])) ∧
    (db.newEmployeeRes emp = .ok () →
      EmployeeHandler.add_new_employee db se emp =
        (.error e,
          ⟨hmSet se.stored_hashes emp.employee_id emp.get_employee_hash,
            hmSet se.stored_employees emp.employee_id emp⟩,
          [DbEvent.beginT, DbEvent.newEmployeeCall emp, DbEvent.commitT,
            DbEvent.rollbackT])) ∧
    (db.updateEmployeeRes emp = .ok () →
      EmployeeHandler.modify_employee db se emp =
        (.error e,
          ⟨hmSet se.stored_hashes emp.employee_id emp.get_employee_hash,
            hmSet se.stored_employees emp.employee_id emp⟩,
          [DbEvent.beginT, DbEvent.updateEmployeeCall emp, DbEvent.commitT,
            DbEvent.rollbackT])) ∧
    (db.removeEmployeeRes eid = .ok () →
      EmployeeHandler.delete_employee db se eid =
        (.error e,
          ⟨hmRemove se.stored_hashes eid, hmRemove se.stored_employees eid⟩,
          [DbEvent.beginT, DbEvent.removeEmployeeCall eid, DbEvent.commitT,
            DbEvent.rollbackT])) ∧
    (AVLTree.find Client.get_key s.local_avl_tree c.client_id = .ok old →
      db.updateClientRes c = .ok () →
      ClientHandler.update_client db s c =
        (.error e, s,
          [DbEvent.beginT, DbEvent.updateClientCall c, DbEvent.commitT,
            DbEvent.rollbackT])) := by
  refine ⟨?_, ?_, ?_, ?_, ?_, ?_⟩
  · intro h1 h2
    simp [ClientHandler.new_client, Transaction.new, Transaction.commit,
      Transaction.dropEvents, hb, hcm, h1, h2]
  · intro h1 h2
    simp [ClientHandler.remove_client, Transaction.new, Transaction.commit,
      Transaction.dropEvents, hb, hcm, h1, h2]
  · intro h1
    simp [EmployeeHandler.add_new_employee, Transaction.new, Transaction.commit,
      Transaction.dropEvents, hb, hcm, h1]
  · intro h1
    simp [EmployeeHandler.modify_employee, Transaction.new, Transaction.commit,
      Transaction.dropEvents, hb, hcm, h1]
  · intro h1
    simp [EmployeeHandler.delete_employee, Transaction.new, Transaction.commit,
      Transaction.dropEvents, hb, hcm, h1]
  · intro h1 h2
    simp [ClientHandler.update_client, Transaction.new, Transaction.commit,
      Transaction.dropEvents, hb, hcm, h1, h2]

/-- C2 witness: commit fails on `dbCommitFail`; creating client 1 and
removing client 42 leave the mutated local structures behind, deleting
employee 11, and updating client 42 leaves the handler unchanged. -/
theorem c2_mutation_vs_commit_order_witness :
    ClientHandler.new_client dbCommitFail chAna cOne7 =
      (.error (.storeError "commit failed"),
        ⟨treeAnaOne, hmPush chAna.employee_client_pairs 7 1⟩,
        [DbEvent.beginT, DbEvent.newClientCall cOne7, DbEvent.commitT,
          DbEvent.rollbackT]) ∧
    ClientHandler.remove_client dbCommitFail chAna cAna7 =
      (.error (.storeError "commit failed"),
        ⟨AVLTree.leaf, pairsRemove chAna.employee_client_pairs 7 42⟩,
        [DbEvent.beginT, DbEvent.removeClientCall cAna7, DbEvent.commitT,
          DbEvent.rollbackT]) ∧
    EmployeeHandler.delete_employee dbCommitFail EmployeeHandler.new 11 =
      (.error (.storeError "commit failed"), ⟨[], []⟩,
        [DbEvent.beginT, DbEvent.removeEmployeeCall 11, DbEvent.commitT,
          DbEvent.rollbackT]) ∧
    ClientHandler.update_client dbCommitFail chAna cAna7s =
      (.error (.storeError "commit failed"), chAna,
        [DbEvent.beginT, DbEvent.updateClientCall cAna7s, DbEvent.commitT,
          DbEvent.rollbackT]) := by
  have h1 := c2_mutation_vs_commit_order dbCommitFail chAna EmployeeHandler.new
    cOne7 empBob 11 (.storeError "commit failed") treeAnaOne AVLTree.leaf cAna7
    rfl rfl
  have h2 := c2_mutation_vs_commit_order dbCommitFail chAna EmployeeHandler.new
    cAna7 empBob 11 (.storeError "commit failed") treeAnaOne AVLTree.leaf cAna7
    rfl rfl
  have h3 := c2_mutation_vs_commit_order dbCommitFail chAna EmployeeHandler.new
    cAna7s empBob 11 (.storeError "commit failed") treeAnaOne AVLTree.leaf cAna7
    rfl rfl
  exact ⟨h1.1 rfl rfl, h2.2.1 rfl rfl, h1.2.2.2.2.1 rfl, h3.2.2.2.2.2 rfl rfl⟩

/-- C4 counterexample: `get_client` on an id absent from the client cache
issues NO store call at all (zero events, not one read-through) and returns
`NotFoundError` — contradicting the claim that a cache miss on a client read
triggers exactly one read-through call that populates the cache. -/
theorem c4_counterexample :
    ClientHandler.get_client chEmpty 1 = (.error .notFound, []) ∧
    (ClientHandler.get_client chEmpty 1).2.length ≠ 1 :=
  ⟨rfl, by decide⟩

/-- C4 (amended): no read operation issues a transaction-control call.  The
client reads (`get_client`, `get_clients_for_employee`) issue no store call
whatsoever — the client cache is loaded eagerly at construction and a miss
yields not-found/none directly.  The employee reads serve a cached entry with
no store call, and on a cache miss issue exactly one read-through call in
every case: when the store yields a record the cache is populated before it
is returned, and when the store yields no record or an error that outcome is
returned with the cache untouched. -/
theorem c4_read_paths (db : Db) (s : ClientHandler) (se : EmployeeHandler)
    (id : Int) (h : String) (empRec : Employee) (e : AppError) :
    ((ClientHandler.get_client s id).2 = []) ∧
    ((ClientHandler.get_clients_for_employee s id).2 = []) ∧
    (hmGet se.stored_hashes id = some h →
      EmployeeHandler.get_employee_hash db se id = (.ok (some h), se, [])) ∧
    (hmGet se.stored_hashes id = none →
      db.getEmployeeHashRes id = .ok (some h) →
      EmployeeHandler.get_employee_hash db se id =
        (.ok (some h), ⟨hmSet se.stored_hashes id h, se.stored_employees⟩,
          [DbEvent.getEmployeeHashCall id]) ∧
      hmGet (hmSet se.stored_hashes id h) id = some h) ∧
    (hmGet se.stored_hashes id = none → db.getEmployeeHashRes id = .ok none →
      EmployeeHandler.get_employee_hash db se id =
        (.ok none, se, [DbEvent.getEmployeeHashCall id])) ∧
    (hmGet se.stored_hashes id = none → db.getEmployeeHashRes id = .error e →
      EmployeeHandler.get_employee_hash db se id =
        (.error e, se, [DbEvent.getEmployeeHashCall id])) ∧
    (hmGet se.stored_employees id = some empRec →
      EmployeeHandler.get_employee db se id = (.ok (some empRec), se, [])) ∧
    (hmGet se.stored_employees id = none →
      db.getEmployeeRes id = .ok (some empRec) →
      EmployeeHandler.get_employee db se id =
        (.ok (some empRec),
          ⟨hmSet se.stored_hashes id empRec.get_employee_hash,
            hmSet se.stored_employees id empRec⟩,
          [DbEvent.getEmployeeCall id]) ∧
      hmGet (hmSet se.stored_employees id empRec) id = some empRec) ∧
    (hmGet se.stored_employees id = none → db.getEmployeeRes id = .ok none →
      EmployeeHandler.get_employee db se id =
        (.ok none, se, [DbEvent.getEmployeeCall id])) ∧
    (hmGet se.stored_employees id = none → db.getEmployeeRes id = .error e →
      EmployeeHandler.get_employee db se id =
        (.error e, se, [DbEvent.getEmployeeCall id])) := by
  refine ⟨rfl, rfl, ?_, ?_, ?_, ?_, ?_, ?_, ?_, ?_⟩
  · intro h1
    simp [EmployeeHandler.get_employee_hash, h1]
  · intro h1 h2
    refine ⟨?_, hmGet_hmSet_self _ _ _⟩
    simp [EmployeeHandler.get_employee_hash, h1, h2]
  · intro h1 h2
    simp [EmployeeHandler.get_employee_hash, h1, h2]
  · intro h1 h2
    simp [EmployeeHandler.get_employee_hash, h1, h2]
  · intro h1
    simp [EmployeeHandler.get_employee, h1]
  · intro h1 h2
    refine ⟨?_, hmGet_hmSet_self _ _ _⟩
    simp [EmployeeHandler.get_employee, h1, h2]
  · intro h1 h2
    simp [EmployeeHandler.get_employee, h1, h2]
  · intro h1 h2
    simp [EmployeeHandler.get_employee, h1, h2]

/-- C4 witness: the miss-then-populate path for employee 3 on a store holding
hash "h3", the single-call miss path for the absent employee 5, and the
no-store-call client read. -/
theorem c4_read_paths_witness :
    EmployeeHandler.get_employee_hash dbEmp3 EmployeeHandler.new 3 =
      (.ok (some "h3"), ⟨[(3, "h3")], []⟩, [DbEvent.getEmployeeHashCall 3]) ∧
    hmGet ([(3, "h3")] : List (Int × String)) 3 = some "h3" ∧
    EmployeeHandler.get_employee dbEmp3 EmployeeHandler.new 5 =
      (.ok none, EmployeeHandler.new, [DbEvent.getEmployeeCall 5]) ∧
    (ClientHandler.get_client chEmpty 3).2 = [] := by
  have h := c4_read_paths dbEmp3 chEmpty EmployeeHandler.new 3 "h3" empBob
    .notFound
  have h5 := c4_read_paths dbEmp3 chEmpty EmployeeHandler.new 5 "h3" empBob
    .notFound
  have h2 := h.2.2.2.1 rfl rfl
  exact ⟨h2.1, h2.2, h5.2.2.2.2.2.2.2.2.1 rfl rfl, h.1⟩

/-- C5: an operation that removes the last client id from a pairing bucket
deletes the bucket itself, so a subsequent lookup of that employee id
returns none (absent), never `some []`: shown for `remove_client` on the
argument's bucket and for an employee-changing `update_client` on the old
cached employee's bucket. -/
theorem c5_empty_bucket_pruned (db : Db) (s : ClientHandler) (c old : Client)
    (hb : db.beginRes = .ok ()) :
    (db.removeClientRes c = .ok () →
      hmGet s.employee_client_pairs c.asn_employee_id = some [c.client_id] →
      hmGet (ClientHandler.remove_client db s c).2.1.employee_client_pairs
        c.asn_employee_id = none) ∧
    (AVLTree.find Client.get_key s.local_avl_tree c.client_id = .ok old →
      old.asn_employee_id ≠ c.asn_employee_id →
      db.updateClientRes c = .ok () → db.commitRes = .ok () →
      hmGet s.employee_client_pairs old.asn_employee_id = some [c.client_id] →
      hmGet (ClientHandler.update_client db s c).2.1.employee_client_pairs
        old.asn_employee_id = none) := by
  constructor
  · intro h1 hbucket
    have hpr : hmGet (pairsRemove s.employee_client_pairs c.asn_employee_id
        c.client_id) c.asn_employee_id = none := by
      rw [hmGet_pairsRemove_self, hbucket]
      show (if [c.client_id].filter (fun j => decide (j ≠ c.client_id)) = []
        then none else _) = none
      rw [if_pos (by simp)]
    unfold ClientHandler.remove_client Transaction.new
    rw [hb]
    rw [h1]
    cases hrem : AVLTree.remove Client.get_key s.local_avl_tree c.client_id with
    | error e => exact hpr
    | ok t1 =>
        unfold Transaction.commit
        cases hcm : db.commitRes with
        | error e2 => exact hpr
        | ok u => exact hpr
  · intro hfind hchg h1 h2 hbucket
    have hpr : hmGet (hmPush (pairsRemove s.employee_client_pairs
        old.asn_employee_id c.client_id) c.asn_employee_id c.client_id)
        old.asn_employee_id = none := by
      rw [hmGet_hmPush_ne _ _ _ _ hchg, hmGet_pairsRemove_self, hbucket]
      show (if [c.client_id].filter (fun j => decide (j ≠ c.client_id)) = []
        then none else _) = none
      rw [if_pos (by simp)]
    unfold ClientHandler.update_client Transaction.new Transaction.commit
    rw [hfind]
    rw [hb, h1, h2]
    dsimp only
    rw [if_neg hchg]
    cases hrem : AVLTree.remove Client.get_key s.local_avl_tree c.client_id with
    | error e => exact hpr
    | ok t1 =>
        dsimp only
        cases hins : AVLTree.insert Client.get_key t1 c with
        | error e => exact hpr
        | ok t2 => exact hpr

/-- C5 witness: removing client 42 (employee 7's only client) prunes bucket
7; re-pointing client 42 from employee 7 to 9 prunes bucket 7. -/
theorem c5_empty_bucket_pruned_witness :
    hmGet (ClientHandler.remove_client dbOK chAna cAna7).2.1.employee_client_pairs
      7 = none ∧
    hmGet (ClientHandler.update_client dbOK chAna cAna9).2.1.employee_client_pairs
      7 = none := by
  have h := c5_empty_bucket_pruned dbOK chAna cAna7 cAna7 rfl
  have h2 := c5_empty_bucket_pruned dbOK chAna cAna9 cAna7 rfl
  exact ⟨h.1 rfl rfl, h2.2 rfl (by decide) rfl rfl rfl⟩

/-- C6 counterexample: after constructing from clients 1 and 2 (both under
employee 7), calling `remove_client` for client 1 with a forged
assigned-employee id 9 (the pairing update targets the absent bucket 9 while
the tree drops client 1), then recreating client 1 under employee 5, the
cached client 1 appears in BOTH bucket 7 and bucket 5 — violating the
claimed invariant that every cached client id appears in exactly one group
whose key is its tree-cached assigned-employee id. -/
theorem c6_counterexample :
    ClientHandler.new [cOne7, cTwo7] = .ok chTwo ∧
    cOne5 ∈ AVLTree.inorder c6run.local_avl_tree ∧
    cOne5.client_id = 1 ∧ cOne5.asn_employee_id = 5 ∧
    hmGet c6run.employee_client_pairs 5 = some [1] ∧
    hmGet c6run.employee_client_pairs 7 = some [1, 2] ∧
    (5 : Int) ≠ 7 :=
  ⟨rfl, by decide, rfl, rfl, rfl, rfl, by decide⟩

/-- C6 (amended): for every sequence of `ClientHandler` write operations
starting from a successful construction, PROVIDED each `remove_client` call
passes the assigned-employee id currently cached for its client id (as the
interactive callers do by fetching the record first — checked by
`consistentRun`), the group index satisfies after the sequence: every cached
client id sits in its tree-cached assigned employee's bucket and in no other
bucket, no bucket is empty, and every bucket entry is the id of a cached
client assigned to that bucket's employee. -/
theorem c6_group_index_invariant (clients : List Client)
    (seq : List (Db × COp)) (s0 : ClientHandler)
    (hnew : ClientHandler.new clients = .ok s0)
    (hcons : consistentRun s0 seq = true) :
    (∀ c2, c2 ∈ AVLTree.inorder (runCOps s0 seq).local_avl_tree →
      ∃ l, hmGet (runCOps s0 seq).employee_client_pairs c2.asn_employee_id =
          some l ∧ c2.client_id ∈ l ∧
        ∀ k2 l2, hmGet (runCOps s0 seq).employee_client_pairs k2 = some l2 →
          c2.client_id ∈ l2 → k2 = c2.asn_employee_id) ∧
    (∀ k l, hmGet (runCOps s0 seq).employee_client_pairs k = some l →
      l ≠ []) ∧
    (∀ k l, hmGet (runCOps s0 seq).employee_client_pairs k = some l →
      ∀ i ∈ l, ∃ c2, c2 ∈ AVLTree.inorder (runCOps s0 seq).local_avl_tree ∧
        c2.client_id = i ∧ c2.asn_employee_id = k) := by
  have hinv := CInv_runCOps seq s0 (CInv_construction clients s0 hnew) hcons
  exact CInv_exactly_one _ hinv

/-- C6 witness: construction from client 42 under employee 7 followed by a
consistent re-pointing update to employee 9. -/
theorem c6_group_index_invariant_witness :
    (∀ c2, c2 ∈ AVLTree.inorder
        (runCOps chAna [(dbOK, COp.updC cAna9)]).local_avl_tree →
      ∃ l, hmGet (runCOps chAna [(dbOK, COp.updC cAna9)]).employee_client_pairs
          c2.asn_employee_id = some l ∧ c2.client_id ∈ l ∧
        ∀ k2 l2, hmGet (runCOps chAna
            [(dbOK, COp.updC cAna9)]).employee_client_pairs k2 = some l2 →
          c2.client_id ∈ l2 → k2 = c2.asn_employee_id) ∧
    (∀ k l, hmGet (runCOps chAna
        [(dbOK, COp.updC cAna9)]).employee_client_pairs k = some l → l ≠ []) ∧
    (∀ k l, hmGet (runCOps chAna
        [(dbOK, COp.updC cAna9)]).employee_client_pairs k = some l →
      ∀ i ∈ l, ∃ c2, c2 ∈ AVLTree.inorder
          (runCOps chAna [(dbOK, COp.updC cAna9)]).local_avl_tree ∧
        c2.client_id = i ∧ c2.asn_employee_id = k) :=
  c6_group_index_invariant [cAna7] [(dbOK, COp.updC cAna9)] chAna rfl rfl

/-- C8: for every sequence of `BalancedIndex` (AVL tree) inserts and removes
starting from the empty tree — failed operations (duplicate-key insert,
absent-key removal) leave the tree unchanged — after each operation every
node's balance factor (height left − height right) lies in {−1, 0, 1}, the
in-order key sequence is strictly increasing, and no key occurs twice. -/
theorem c8_balanced_index_invariants {α : Type} (key : α → Int)
    (ops : List (TOp α)) :
    AVLTree.bfacOK (runTOps key AVLTree.leaf ops) ∧
    List.Pairwise (· < ·) (AVLTree.keysL key (runTOps key AVLTree.leaf ops)) ∧
    (AVLTree.keysL key (runTOps key AVLTree.leaf ops)).Nodup := by
  obtain ⟨ho, hb⟩ := runTOps_inv key ops AVLTree.leaf trivial trivial
  refine ⟨AVLTree.balanced_bfacOK _ hb, ?_,
    AVLTree.ordered_keys_nodup key _ ho⟩
  rw [AVLTree.keysL]
  exact List.pairwise_map.mpr ((AVLTree.ordered_iff_pairwise key _).mp ho)

/-- C10: `update_client` called with a client whose id is not in the local
AVL tree fails with `NotFoundError` before any store interaction: the event
trace is empty (no `beginTransaction`, no remote update) and the handler
state — tree and group index — is returned unchanged. -/
theorem c10_update_absent_aborts (db : Db) (s : ClientHandler) (c : Client)
    (ho : AVLTree.Ordered Client.get_key s.local_avl_tree)
    (habs : c.client_id ∉ AVLTree.keysL Client.get_key s.local_avl_tree) :
    ClientHandler.update_client db s c = (.error .notFound, s, []) := by
  unfold ClientHandler.update_client
  rw [AVLTree.find_error_of_not_mem Client.get_key s.local_avl_tree
    c.client_id ho habs]

/-- C10 witness: updating the uncached client 1 on the handler caching only
client 42. -/
theorem c10_update_absent_aborts_witness :
    ClientHandler.update_client dbOK chAna cOne7 =
      (.error .notFound, chAna, []) :=
  c10_update_absent_aborts dbOK chAna cOne7
    (by simp [AVLTree.Ordered, AVLTree.inorder, chAna]) (by decide)

/-- C9: a successful `update_client` whose record keeps the cached
assigned-employee id leaves the employee→clients pairing map completely
unchanged (in fact the map is untouched on every path of such a call), and
only the tree entry of that client id is replaced: the updated id now finds
the new record and every other key finds exactly what it found before. -/
theorem c9_update_same_employee_frame (db : Db) (s : ClientHandler)
    (c old : Client)
    (ho : AVLTree.Ordered Client.get_key s.local_avl_tree)
    (hfind : AVLTree.find Client.get_key s.local_avl_tree c.client_id = .ok old)
    (hasn : old.asn_employee_id = c.asn_employee_id) :
    (ClientHandler.update_client db s c).2.1.employee_client_pairs =
      s.employee_client_pairs ∧
    ((ClientHandler.update_client db s c).1 = .ok () →
      AVLTree.find Client.get_key
        (ClientHandler.update_client db s c).2.1.local_avl_tree c.client_id =
        .ok c ∧
      ∀ k, k ≠ c.client_id →
        AVLTree.find Client.get_key
          (ClientHandler.update_client db s c).2.1.local_avl_tree k =
          AVLTree.find Client.get_key s.local_avl_tree k) := by
  obtain ⟨holdmem, holdkey⟩ :=
    AVLTree.find_ok_mem Client.get_key s.local_avl_tree c.client_id old ho hfind
  unfold ClientHandler.update_client Transaction.new Transaction.commit
  rw [hfind]
  cases hb : db.beginRes with
  | error e => simp [hb]
  | ok u =>
      cases hcr : db.updateClientRes c with
      | error e => simp [hb, hcr]
      | ok u2 =>
          cases hcm : db.commitRes with
          | error e => simp [hb, hcr, hcm]
          | ok u3 =>
              simp only [hb, hcr, hcm]
              rw [if_pos hasn]
              cases hrem : AVLTree.remove Client.get_key s.local_avl_tree
                  c.client_id with
              | error e =>
                  exact ⟨rfl, fun hok => absurd hok (by simp)⟩
              | ok t1 =>
                  dsimp only
                  cases hins : AVLTree.insert Client.get_key t1 c with
                  | error e =>
                      exact ⟨rfl, fun hok => absurd hok (by simp)⟩
                  | ok t2 =>
                      refine ⟨rfl, fun _ => ⟨?_, ?_⟩⟩
                      · have ho1 := AVLTree.ordered_remove Client.get_key
                          s.local_avl_tree c.client_id t1 ho hrem
                        have ho2 := AVLTree.ordered_insert Client.get_key
                          t1 c t2 ho1 hins
                        show AVLTree.find Client.get_key t2 c.client_id = .ok c
                        rw [AVLTree.find_eq_lookupE _ _ _ ho2,
                          AVLTree.insert_ok_inorder _ t1 c t2 ho1 hins]
                        have hfresh : Client.get_key c ∉
                            (AVLTree.inorder t1).map Client.get_key := by
                          have := AVLTree.keys_remove_not_mem Client.get_key
                            s.local_avl_tree c.client_id t1 ho hrem
                          rwa [AVLTree.keysL] at this
                        exact lookupE_insL_self Client.get_key
                          (AVLTree.inorder t1) c hfresh
                      · intro k hk
                        have ho1 := AVLTree.ordered_remove Client.get_key
                          s.local_avl_tree c.client_id t1 ho hrem
                        have ho2 := AVLTree.ordered_insert Client.get_key
                          t1 c t2 ho1 hins
                        show AVLTree.find Client.get_key t2 k =
                          AVLTree.find Client.get_key s.local_avl_tree k
                        rw [AVLTree.find_eq_lookupE _ _ _ ho2,
                          AVLTree.insert_ok_inorder _ t1 c t2 ho1 hins,
                          lookupE_insL_ne Client.get_key (AVLTree.inorder t1) c k
                            (show Client.get_key c ≠ k from Ne.symm hk),
                          AVLTree.remove_ok_inorder _ s.local_avl_tree
                            c.client_id t1 ho hrem,
                          lookupE_removeL_ne _ _ _ _ hk,
                          ← AVLTree.find_eq_lookupE _ _ _ ho]

/-- C9 witness: updating client 42's service on `chAna` (same employee 7):
the pairing map is unchanged, id 42 finds the new record, id 1 finds what it
found before. -/
theorem c9_update_same_employee_frame_witness :
    (ClientHandler.update_client dbOK chAna cAna7s).2.1.employee_client_pairs =
      chAna.employee_client_pairs ∧
    AVLTree.find Client.get_key
      (ClientHandler.update_client dbOK chAna cAna7s).2.1.local_avl_tree 42 =
      .ok cAna7s ∧
    ∀ k, k ≠ (42 : Int) →
      AVLTree.find Client.get_key
        (ClientHandler.update_client dbOK chAna cAna7s).2.1.local_avl_tree k =
        AVLTree.find Client.get_key chAna.local_avl_tree k := by
  have h := c9_update_same_employee_frame dbOK chAna cAna7s cAna7
    (by simp [AVLTree.Ordered, AVLTree.inorder, chAna]) rfl rfl
  have h2 := h.2 rfl
  exact ⟨h.1, h2.1, h2.2⟩
